import Mathlib

/-!
# Sector reconciliation (`src/src/Sector.cpp`)

A shallow embedding of the `Sector` class of SAMdisk: the sector state, the
reconciliation algorithm `Sector::add`, the cross-sector `Sector::merge` and the
auxiliary mutators, followed by theorems about them.

Conventions of the embedding

* A `Data` buffer (`std::vector<uint8_t>`) is a list of bytes, `DataList` a list of
  buffers; `std::vector::resize` is `resize` below.
* Member functions take the sector as an explicit argument and return the new sector;
  `add` and `merge` return the outcome together with the new state.
* The collaborators that `Sector.cpp` only calls (`Header::sector_size`, the 8K
  checksum recognizer `ChecksumMethods`) and the global options `opt.maxcopies` and
  `opt.fill` are fields of an explicit environment `Env`.
* Buffer lengths are natural numbers: the `static_cast<int>` of a `size_t` length is the
  identity for every buffer below 2 GiB.
-/

namespace Samdisk

/-- One byte, `uint8_t`. -/
abbrev Byte := Fin 256

/-- A data buffer, `Data` = `std::vector<uint8_t>`. -/
abbrev Data := List Byte

/-- The ordered list of retained copies, `DataList` = `std::vector<Data>`. -/
abbrev DataList := List Data

/-- Data rates of `enum class DataRate`; only `_250K` is named by `Sector.cpp`. -/
inductive DataRate where
  | Unknown
  | _250K
  | _300K
  | _500K
  | _1M
  deriving DecidableEq, Repr

/-- Encodings of `enum class Encoding`; `Sector.cpp` names `MFM` and `FM`. -/
inductive Encoding where
  | Unknown
  | MFM
  | FM
  | RX02
  | Amiga
  | GCR
  | Ace
  | MX
  | Agat
  | Apple
  | Victor
  | Vista
  deriving DecidableEq, Repr

/-- The sector address (cylinder, head, sector number, size code) of `Header`.
`Header.h` is not among the sources; as the data model has it, two headers are equal when
all four fields match, which is the derived equality. -/
structure Header where
  cyl : Int
  head : Int
  sector : Int
  size : Int
  deriving DecidableEq, Repr

/-- The tri-state outcome `Sector::Merge`. -/
inductive Merge where
  | Unchanged
  | Improved
  | NewData
  deriving DecidableEq, Repr

/-- What `Sector.cpp` consumes from the rest of the program.

* `maxcopies` is `opt.maxcopies` (the copy cap; a non-negative count),
* `fill` is `opt.fill` (an `int`, negative when unset),
* `sector_size` is `Header::sector_size()`, the nominal byte length of a header,
* `ChecksumMethods` is the 8K checksum recognizer: the set of checksum methods a
  buffer satisfies, as a list of method identifiers (only its emptiness is used). -/
structure Env where
  maxcopies : Nat
  fill : Int
  sector_size : Header → Nat
  ChecksumMethods : Data → List Nat

/-- The state of one `Sector` object. -/
structure Sector where
  header : Header
  datarate : DataRate
  encoding : Encoding
  gap3 : Int
  dam : Byte
  m_bad_id_crc : Bool
  m_bad_data_crc : Bool
  m_data : DataList
  deriving DecidableEq, Repr

/-- The effect of `std::vector<T>::resize(n)`: keep the first `n` elements and pad with
value-initialised elements `z` up to `n`. -/
def resize {α : Type} (z : α) (v : List α) (n : Nat) : List α :=
  v.take n ++ List.replicate (n - v.length) z

namespace Sector

/-- Modelled from the spec: the member defaults of `Sector.h` (not among the sources) that
the constructor `Sector::Sector(datarate, encoding, header, gap3)` (lines 4-7) leaves in
place: an empty copy list, both CRC flags clear and the address mark at the "normal"
sentinel `0xfb`. The four constructor arguments are stored as in the source. -/
def new (datarate : DataRate) (encoding : Encoding) (header : Header) (gap3 : Int) : Sector :=
  { header := header, datarate := datarate, encoding := encoding, gap3 := gap3,
    dam := 0xfb, m_bad_id_crc := false, m_bad_data_crc := false, m_data := [] }

/-- `Sector::size`. -/
def size (env : Env) (s : Sector) : Nat :=
  env.sector_size s.header

/-- `Sector::copies`. -/
def copies (s : Sector) : Nat :=
  s.m_data.length

/-- `Sector::data_size`: the length of the first copy, or 0 without copies. -/
def data_size (s : Sector) : Nat :=
  match s.m_data with
  | [] => 0
  | d :: _ => d.length

/-- `Sector::has_data`. -/
def has_data (s : Sector) : Bool :=
  s.copies != 0

/-- `Sector::has_badidcrc`. -/
def has_badidcrc (s : Sector) : Bool :=
  s.m_bad_id_crc

/-- `Sector::has_baddatacrc`. -/
def has_baddatacrc (s : Sector) : Bool :=
  s.m_bad_data_crc

/-- `Sector::has_gapdata`. -/
def has_gapdata (env : Env) (s : Sector) : Bool :=
  decide (s.data_size > s.size env)

/-- `Sector::has_shortdata`. -/
def has_shortdata (env : Env) (s : Sector) : Bool :=
  decide (s.data_size < s.size env)

/-- `Sector::has_good_data`. -/
def has_good_data (env : Env) (s : Sector) : Bool :=
  s.has_data && !s.has_baddatacrc && !s.has_gapdata env

/-- `Sector::is_8k_sector`. -/
def is_8k_sector (s : Sector) : Bool :=
  decide (s.datarate = DataRate._250K) && decide (s.encoding = Encoding.MFM) &&
    decide (s.header.size = 6) && s.has_data

/-- `Sector::remove_data`. -/
def remove_data (s : Sector) : Sector :=
  { s with m_data := [], m_bad_data_crc := false, dam := 0xfb }

/-- `Sector::limit_copies`. The cap is a natural number: with a negative `int` the
`resize` of the source would be asked for more than `max_size()` elements and throw. -/
def limit_copies (s : Sector) (max_copies : Nat) : Sector :=
  if s.copies > max_copies then { s with m_data := resize [] s.m_data max_copies } else s

/-- `Sector::set_badidcrc`. -/
def set_badidcrc (s : Sector) (bad : Bool) : Sector :=
  let s1 := { s with m_bad_id_crc := bad }
  if bad then s1.remove_data else s1

/-- The `fill_byte` of `Sector::set_baddatacrc`: `opt.fill` cast to `uint8_t` when it
is non-negative, else 0. -/
def fill_byte (env : Env) : Byte :=
  if env.fill ≥ 0 then Fin.ofNat (env.fill % 256).toNat else 0

/-- `Sector::set_baddatacrc`. -/
def set_baddatacrc (env : Env) (s : Sector) (bad : Bool) : Sector :=
  let s1 := { s with m_bad_data_crc := bad }
  if !bad then
    if !s1.has_data then
      { s1 with m_data := s1.m_data ++ [List.replicate (s1.size env) (fill_byte env)] }
    else if s1.copies > 1 then
      let s2 := { s1 with m_data := resize [] s1.m_data 1 }
      if s2.data_size < s2.size env then
        match s2.m_data with
        | [] => s2
        | d :: rest =>
          { s2 with
            m_data := (List.replicate (s2.size env - s2.data_size) (fill_byte env) ++ d) :: rest }
      else s2
    else s1
  else s1

/-- `Sector::remove_gapdata`. -/
def remove_gapdata (env : Env) (s : Sector) (keep_crc : Bool) : Sector :=
  if !s.has_gapdata env then s
  else
    { s with
      m_data := s.m_data.map fun data =>
        if keep_crc && s.has_baddatacrc && decide (data.length ≥ s.size env + 2) then
          resize 0 data (s.size env + 2)
        else
          resize 0 data (s.size env) }

/-- The element `m_data[0]`; read only where the copy list is non-empty. -/
def front (l : DataList) : Data :=
  l.headD []

/-- How the deduplication loop of `Sector::add` (lines 127-171) ends: with an early
`return Merge::Unchanged`, or by running off the end of the list. Either way the copy
list is left as the loop has made it so far. -/
inductive Scan where
  | ignored (m_data : DataList)
  | scanned (m_data : DataList) (ret : Merge)
  deriving DecidableEq, Repr

/-- The deduplication loop of `Sector::add` (lines 127-171). `kept` holds the copies
before the iterator (visited and not erased), the last argument the copies from the
iterator on; `ret` is the outcome accumulated so far. -/
def add_scan (complete_size : Nat) (new_data : Data) :
    Merge → DataList → DataList → Scan
  | ret, kept, [] => Scan.scanned kept ret
  | ret, kept, data :: rest =>
    if data.length ≥ complete_size ∧ new_data.length ≥ complete_size ∧
        data.take complete_size = new_data.take complete_size then
      -- the complete area of the data matches: ignore the new copy
      Scan.ignored (kept ++ data :: rest)
    else if data.length ≥ new_data.length then
      if new_data = data.take new_data.length then
        if data.length = new_data.length ∨ new_data.length < complete_size then
          Scan.ignored (kept ++ data :: rest)
        else
          -- m_data.erase(it); ret = Improved; continue
          add_scan complete_size new_data Merge.Improved kept rest
      else
        add_scan complete_size new_data ret (kept ++ [data]) rest
    else
      if data = new_data.take data.length then
        if data.length ≥ complete_size then
          Scan.ignored (kept ++ data :: rest)
        else
          -- m_data.erase(it); ret = Improved; continue
          add_scan complete_size new_data Merge.Improved kept rest
      else
        add_scan complete_size new_data ret (kept ++ [data]) rest

/-- The 8K path of `Sector::add` (lines 102-121), entered when `is_8k_sector()` holds:
`none` is the early `return Merge::Unchanged`, otherwise the sector and the outcome the
function continues with. -/
def add_8k (env : Env) (s : Sector) (ret : Merge) (new_data : Data) : Option (Sector × Merge) :=
  if s.is_8k_sector then
    if !(env.ChecksumMethods new_data).isEmpty then
      some (s.remove_data, Merge.Improved)
    else if s.copies = 1 then
      if !(env.ChecksumMethods (front s.m_data)).isEmpty then none else some (s, ret)
    else some (s, ret)
  else some (s, ret)

/-- The tail of `Sector::add` (lines 198-206): append the new copy, apply the copy cap,
take over the candidate's CRC state and address mark. -/
def add_store (env : Env) (s : Sector) (new_data : Data) (bad_crc : Bool) (new_dam : Byte)
    (ret : Merge) : Merge × Sector :=
  let s1 := ({ s with m_data := s.m_data ++ [new_data] }).limit_copies env.maxcopies
  (ret, { s1 with m_bad_data_crc := bad_crc, dam := new_dam })

/-- The second half of `Sector::add` (lines 123-206), run on the sector and outcome left
by the first half: completeness size, deduplication loop, address-mark arbitration,
length alignment and insertion. -/
def add_compare (env : Env) (s : Sector) (ret : Merge) (new_data : Data) (bad_crc : Bool)
    (new_dam : Byte) : Merge × Sector :=
  -- DD 8K sectors are considered complete at 6K, everything else at natural size
  let complete_size := if s.is_8k_sector then 0x1800 else new_data.length
  match add_scan complete_size new_data ret [] s.m_data with
  | Scan.ignored l => (Merge.Unchanged, { s with m_data := l })
  | Scan.scanned l ret3 =>
    let s3 := { s with m_data := l }
    -- Will we now have multiple copies?
    if s3.copies > 0 then
      if s3.dam ≠ new_dam ∧ (s3.dam = 0xfb ∨ (s3.dam = 0xf8 ∧ new_dam ≠ 0xfb)) then
        (Merge.Unchanged, s3)
      else if !s3.has_baddatacrc then
        (Merge.Unchanged, s3)
      else
        -- Keep multiple copies the same size, whichever is shortest
        let new_size := min new_data.length (front s3.m_data).length
        let s4 := { s3 with m_data := s3.m_data.map fun d => resize 0 d new_size }
        add_store env s4 (resize 0 new_data new_size) bad_crc new_dam ret3
    else
      add_store env s3 new_data bad_crc new_dam ret3

/-- `Sector::add`. The `_DEBUG`-only CRC cross-check (lines 77-88) only asserts and is
left out. -/
def add (env : Env) (s : Sector) (new_data : Data) (bad_crc : Bool) (new_dam : Byte) :
    Merge × Sector :=
  -- If the sector has a bad header CRC, it can't have any data
  if s.has_badidcrc then (Merge.Unchanged, s)
  -- If the existing sector has good data, ignore supplied data if it's bad
  else if bad_crc && s.has_good_data env then (Merge.Unchanged, s)
  else
    -- If the existing sector is bad, new good data will replace it all
    let s1 := if !bad_crc && s.has_baddatacrc then s.remove_data else s
    let ret1 := if !bad_crc && s.has_baddatacrc then Merge.Improved else Merge.NewData
    match add_8k env s1 ret1 new_data with
    | none => (Merge.Unchanged, s1)
    | some (s2, ret2) => add_compare env s2 ret2 new_data bad_crc new_dam

/-- The loop of `Sector::merge` (lines 235-241) over the copies of the other sector. -/
def merge_loop (env : Env) (bad_crc : Bool) (new_dam : Byte) :
    Sector → Merge → DataList → Merge × Sector
  | s, ret, [] => (ret, s)
  | s, ret, data :: rest =>
    let r := s.add env data bad_crc new_dam
    let ret1 := if r.1 = Merge.Improved ∨ ret = Merge.Unchanged then r.1 else ret
    merge_loop env bad_crc new_dam r.2 ret1 rest

/-- `Sector::merge`, returning the outcome, the receiver and the other sector. The three
`assert`s (matching header, data rate and encoding) are the caller's precondition and
have no effect on the state. -/
def merge (env : Env) (s : Sector) (sector : Sector) : Merge × Sector × Sector :=
  if sector.has_badidcrc then (Merge.Unchanged, s, sector)
  else
    let s1 := if s.has_badidcrc then ({ s with header := sector.header }).set_badidcrc false else s
    let ret := if s.has_badidcrc then Merge.Improved else Merge.Unchanged
    if !s1.has_baddatacrc && sector.has_baddatacrc then (ret, s1, sector)
    else
      let r := merge_loop env sector.has_baddatacrc sector.dam s1 ret sector.m_data
      (r.1, r.2, { sector with m_data := [] })

/-- The copy list a finished deduplication loop leaves behind. -/
def Scan.list : Scan → DataList
  | Scan.ignored l => l
  | Scan.scanned l _ => l

/-- What one pass of the body of the deduplication loop decides about the copy `data`:
return `Unchanged` at once, erase the copy, or keep it and move on. -/
inductive Verdict where
  | stop
  | erase
  | keep
  deriving DecidableEq, Repr

/-- The decision of the loop body of `Sector::add` (lines 129-170) on one copy; the same
tests as in `add_scan`, which `add_scan_cons` below relates to it. -/
def verdict (complete_size : Nat) (new_data data : Data) : Verdict :=
  if data.length ≥ complete_size ∧ new_data.length ≥ complete_size ∧
      data.take complete_size = new_data.take complete_size then Verdict.stop
  else if data.length ≥ new_data.length then
    if new_data = data.take new_data.length then
      if data.length = new_data.length ∨ new_data.length < complete_size then Verdict.stop
      else Verdict.erase
    else Verdict.keep
  else
    if data = new_data.take data.length then
      if data.length ≥ complete_size then Verdict.stop else Verdict.erase
    else Verdict.keep

/-- Adding the candidates of a list one after another, each flagged bad-CRC and carrying
the address mark `new_dam`; the outcomes are dropped. -/
def add_all (env : Env) (s : Sector) (cands : List Data) (new_dam : Byte) : Sector :=
  cands.foldl (fun t d => (t.add env d true new_dam).2) s

/-- `Sector::data_copy` (const overload): the copy at index `copy` clamped into
`[0, copies()-1]`; read only where the copy list is non-empty. -/
def data_copy (s : Sector) (copy : Int) : Data :=
  s.m_data.getD (max (min copy ((s.m_data.length : Int) - 1)) 0).toNat []

/-- `Sector::operator==`, the receiver being `s`. `std::equal` over the first `size()`
bytes of the receiver's first copy against the first copy of `sector`. -/
def operator_eq (env : Env) (s sector : Sector) : Bool :=
  -- Headers must match
  if sector.header ≠ s.header then false
  -- If neither has data it's a match
  else if sector.m_data.length = 0 ∧ s.m_data.length = 0 then true
  -- Both sectors must have some data
  else if sector.copies = 0 ∨ s.copies = 0 then false
  -- Both first sectors must have at least the natural size to compare
  else if sector.data_size < sector.size env ∨ s.data_size < s.size env then false
  -- The natural data contents must match
  else decide ((s.data_copy 0).take (s.size env) = (sector.data_copy 0).take (s.size env))

/-- `Sector::SizeCodeToRealSizeCode`. -/
def SizeCodeToRealSizeCode (size : Int) : Int :=
  if size ≤ 7 then size else 8

/-- `Sector::SizeCodeToLength`: `128 << SizeCodeToRealSizeCode(size)`. The real size code
is at most 8, so the shift cannot overflow; with a negative shift count the C++ expression
has no defined value, which is `none`. -/
def SizeCodeToLength (size : Int) : Option Int :=
  if 0 ≤ SizeCodeToRealSizeCode size then
    some (128 * 2 ^ (SizeCodeToRealSizeCode size).toNat)
  else none

/-- The outcomes of the successive `add` calls of the loop of `Sector::merge`
(lines 235-241), in order. -/
def merge_outcomes (env : Env) (bad_crc : Bool) (new_dam : Byte) :
    Sector → DataList → List Merge
  | _, [] => []
  | s, data :: rest =>
    (s.add env data bad_crc new_dam).1 ::
      merge_outcomes env bad_crc new_dam (s.add env data bad_crc new_dam).2 rest

/-- The outcomes of the `add` calls that `s.merge(sector)` makes: none when `merge`
returns before its loop, else one per copy of `sector`. -/
def merge_adds (env : Env) (s : Sector) (sector : Sector) : List Merge :=
  if sector.has_badidcrc then []
  else
    let s1 := if s.has_badidcrc then ({ s with header := sector.header }).set_badidcrc false else s
    if !s1.has_baddatacrc && sector.has_baddatacrc then []
    else merge_outcomes env sector.has_baddatacrc sector.dam s1 sector.m_data

/-- Whether `s.merge(sector)` repairs the header of `s` (lines 223-228). -/
def merge_repairs (s : Sector) (sector : Sector) : Bool :=
  !sector.has_badidcrc && s.has_badidcrc

end Sector

/-- Length alignment: all retained copies have the same length. -/
def Aligned (s : Sector) : Prop :=
  ∀ d1 ∈ s.m_data, ∀ d2 ∈ s.m_data, d1.length = d2.length

/-- The sector states reachable from a freshly constructed sector by the mutators of
`Sector.cpp`; `merge` leaves two sectors behind, the receiver and the one merged in. -/
inductive Reachable (env : Env) : Sector → Prop where
  | new (dr : DataRate) (enc : Encoding) (hdr : Header) (gap3 : Int) :
    Reachable env (Sector.new dr enc hdr gap3)
  | add {s : Sector} (nd : Data) (b : Bool) (m : Byte) :
    Reachable env s → Reachable env (s.add env nd b m).2
  | merge_receiver {s o : Sector} :
    Reachable env s → Reachable env o → Reachable env (s.merge env o).2.1
  | merge_other {s o : Sector} :
    Reachable env s → Reachable env o → Reachable env (s.merge env o).2.2
  | set_badidcrc {s : Sector} (bad : Bool) :
    Reachable env s → Reachable env (s.set_badidcrc bad)
  | set_baddatacrc {s : Sector} (bad : Bool) :
    Reachable env s → Reachable env (s.set_baddatacrc env bad)
  | remove_data {s : Sector} :
    Reachable env s → Reachable env s.remove_data
  | limit_copies {s : Sector} (max_copies : Nat) :
    Reachable env s → Reachable env (s.limit_copies max_copies)
  | remove_gapdata {s : Sector} (keep_crc : Bool) :
    Reachable env s → Reachable env (s.remove_gapdata env keep_crc)

/-- The multi-copy invariant: more than one retained copy only with the bad-data-CRC flag
set. -/
def MultiCopyOk (s : Sector) : Prop :=
  s.copies > 1 → s.has_baddatacrc = true

instance (s : Sector) : Decidable (MultiCopyOk s) := by
  unfold MultiCopyOk; infer_instance

/-- The bad-header invariant: a sector whose header CRC is bad holds no copies. -/
def BadHeaderOk (s : Sector) : Prop :=
  s.has_badidcrc = true → s.copies = 0

instance (s : Sector) : Decidable (BadHeaderOk s) := by
  unfold BadHeaderOk; infer_instance

/-- The environment `env` with the copy cap raised to `copies() + 1` of the sector `s`.
An `add` on `s` appends one copy to at most `copies()` survivors, so under this cap
`limit_copies` (line 200) cuts nothing: `add` then leaves the copy list as it stands right
after the append at line 199. -/
def uncapped (env : Env) (s : Sector) : Env :=
  { env with maxcopies := s.copies + 1 }

/-! ### Concrete environments and sectors used in the examples -/

/-- An environment for 512-byte sectors: three copies at most, no fill byte configured,
and a recognizer that knows no checksum. -/
def env512 : Env :=
  { maxcopies := 3, fill := -1, sector_size := fun _ => 512, ChecksumMethods := fun _ => [] }

/-- The environment `env512` with the cap lowered to two copies. -/
def env512cap2 : Env := { env512 with maxcopies := 2 }

/-- The header of sector 1 on cylinder 0, head 0, with size code 2. -/
def hdr512 : Header := { cyl := 0, head := 0, sector := 1, size := 2 }

/-- A freshly constructed 500K MFM sector with a 512-byte header. -/
def fresh512 : Sector := Sector.new DataRate._500K Encoding.MFM hdr512 0

/-- An environment for 8K sectors whose stand-in recognizer knows one checksum method,
satisfied by the buffers that end in the byte `0xff`. -/
def env8k : Env :=
  { maxcopies := 3, fill := -1, sector_size := fun _ => 8192,
    ChecksumMethods := fun d => if d.getLast? = some 0xff then [1] else [] }

/-- An 8K sector (250K, MFM, size code 6) holding one bad-CRC copy of 6144 zero bytes. -/
def stored8k : Sector :=
  { header := { cyl := 0, head := 0, sector := 1, size := 6 }, datarate := DataRate._250K,
    encoding := Encoding.MFM, gap3 := 0, dam := 0xfb, m_bad_id_crc := false,
    m_bad_data_crc := true, m_data := [List.replicate 6144 0] }


open Sector

/-! ## Lemmas on the stages of `add` -/

theorem add_scan_sublist (c : Nat) (nd : Data) (rest : DataList) :
    ∀ (ret : Merge) (kept : DataList),
      (add_scan c nd ret kept rest).list.Sublist (kept ++ rest) := by
  induction rest with
  | nil => intro ret kept; simp [add_scan, Scan.list]
  | cons d rest ih =>
    intro ret kept
    have hdrop : (kept ++ rest).Sublist (kept ++ d :: rest) :=
      List.Sublist.append_left (List.sublist_cons_self d rest) kept
    have hkeep : ((kept ++ [d]) ++ rest).Sublist (kept ++ d :: rest) := by simp
    unfold add_scan
    split_ifs
    all_goals first
      | exact List.Sublist.refl _
      | exact (ih _ _).trans hdrop
      | exact (ih _ _).trans hkeep

theorem add_scan_length_le (c : Nat) (nd : Data) (ret : Merge) (kept rest : DataList) :
    (add_scan c nd ret kept rest).list.length ≤ kept.length + rest.length := by
  have h := (add_scan_sublist c nd rest ret kept).length_le
  simpa using h

theorem add_scan_ret (c : Nat) (nd : Data) (rest : DataList) :
    ∀ (ret : Merge) (kept l : DataList) (ret' : Merge),
      add_scan c nd ret kept rest = Scan.scanned l ret' → ret' = ret ∨ ret' = Merge.Improved := by
  induction rest with
  | nil =>
    intro ret kept l ret' h
    simp only [add_scan, Scan.scanned.injEq] at h
    exact Or.inl h.2.symm
  | cons d rest ih =>
    intro ret kept l ret' h
    unfold add_scan at h
    split_ifs at h
    all_goals first
      | exact ih _ _ _ _ h
      | exact Or.inr ((ih _ _ _ _ h).elim id id)

theorem add_scan_ignored_ne_nil (c : Nat) (nd : Data) (rest : DataList) :
    ∀ (ret : Merge) (kept l : DataList),
      add_scan c nd ret kept rest = Scan.ignored l → l ≠ [] := by
  induction rest with
  | nil => intro ret kept l h; simp [add_scan] at h
  | cons d rest ih =>
    intro ret kept l h
    unfold add_scan at h
    split_ifs at h
    all_goals first
      | exact ih _ _ _ h
      | (simp only [Scan.ignored.injEq] at h; subst h; simp)

theorem add_8k_some (env : Env) (s s2 : Sector) (ret ret2 : Merge) (nd : Data)
    (h : add_8k env s ret nd = some (s2, ret2)) :
    (s2 = s ∧ ret2 = ret) ∨ (s2 = s.remove_data ∧ ret2 = Merge.Improved) := by
  unfold add_8k at h
  split_ifs at h <;> simp only [Option.some.injEq, Prod.mk.injEq] at h
  all_goals first
    | exact Or.inl ⟨h.1.symm, h.2.symm⟩
    | exact Or.inr ⟨h.1.symm, h.2.symm⟩

theorem add_8k_none (env : Env) (s : Sector) (ret : Merge) (nd : Data)
    (h : add_8k env s ret nd = none) : s.m_data ≠ [] := by
  unfold add_8k at h
  split_ifs at h with h1
  intro h2
  simp [is_8k_sector, has_data, copies, h2] at h1

theorem add_compare_cases (env : Env) (s : Sector) (ret : Merge) (nd : Data) (b : Bool)
    (m : Byte) (hret : ret ≠ Merge.Unchanged) :
    (∃ l, l ≠ [] ∧ l.Sublist s.m_data ∧
        add_compare env s ret nd b m = (Merge.Unchanged, { s with m_data := l })) ∨
    (∃ ret', ret' ≠ Merge.Unchanged ∧
        add_compare env s ret nd b m = add_store env { s with m_data := [] } nd b m ret') ∨
    (∃ ret' l, ret' ≠ Merge.Unchanged ∧ l ≠ [] ∧ l.Sublist s.m_data ∧
        s.m_bad_data_crc = true ∧
        add_compare env s ret nd b m =
          add_store env
            { s with m_data := l.map fun d => resize 0 d (min nd.length (front l).length) }
            (resize 0 nd (min nd.length (front l).length)) b m ret') := by
  unfold add_compare
  dsimp only
  generalize hc : (if s.is_8k_sector then 0x1800 else nd.length) = c
  have hsub := add_scan_sublist c nd s.m_data ret []
  have hr := add_scan_ret c nd s.m_data ret []
  cases hscan : add_scan c nd ret [] s.m_data with
  | ignored l =>
    rw [hscan] at hsub
    exact Or.inl ⟨l, add_scan_ignored_ne_nil c nd _ _ _ _ hscan,
      by simpa [Scan.list] using hsub, rfl⟩
  | scanned l ret3 =>
    rw [hscan] at hsub
    have hsub' : l.Sublist s.m_data := by simpa [Scan.list] using hsub
    have hret3 : ret3 ≠ Merge.Unchanged := by
      rcases hr l ret3 hscan with h | h
      · rw [h]; exact hret
      · rw [h]; decide
    simp only [copies, has_baddatacrc]
    split_ifs with h1 h2 h3
    · exact Or.inl ⟨l, List.ne_nil_of_length_pos h1, hsub', rfl⟩
    · exact Or.inl ⟨l, List.ne_nil_of_length_pos h1, hsub', rfl⟩
    · refine Or.inr (Or.inr ⟨ret3, l, hret3, ?_, hsub', ?_, rfl⟩)
      · exact List.ne_nil_of_length_pos h1
      · simpa using h3
    · have hl : l = [] := List.eq_nil_of_length_eq_zero (by omega)
      subst hl
      exact Or.inr (Or.inl ⟨ret3, hret3, rfl⟩)

theorem add_cases (env : Env) (s : Sector) (nd : Data) (b : Bool) (m : Byte) :
    (∃ l, l.Sublist s.m_data ∧
        s.add env nd b m = (Merge.Unchanged, { s with m_data := l })) ∨
    (∃ ret' base, ret' ≠ Merge.Unchanged ∧ (base = s ∨ base = s.remove_data) ∧
        s.m_bad_id_crc = false ∧
        s.add env nd b m = add_store env { base with m_data := [] } nd b m ret') ∨
    (∃ ret' l, ret' ≠ Merge.Unchanged ∧ l ≠ [] ∧ l.Sublist s.m_data ∧
        s.m_bad_data_crc = true ∧ b = true ∧ s.m_bad_id_crc = false ∧
        s.add env nd b m =
          add_store env
            { s with m_data := l.map fun d => resize 0 d (min nd.length (front l).length) }
            (resize 0 nd (min nd.length (front l).length)) b m ret') := by
  have hself : ({ s with m_data := s.m_data } : Sector) = s := rfl
  unfold Sector.add
  by_cases hid : s.has_badidcrc = true
  · exact Or.inl ⟨s.m_data, List.Sublist.refl _, by simp [hid]⟩
  by_cases hg : (b && s.has_good_data env) = true
  · exact Or.inl ⟨s.m_data, List.Sublist.refl _, by simp [hid, hg]⟩
  have hid' : s.m_bad_id_crc = false := by simpa [has_badidcrc] using hid
  simp only [hid, hg, Bool.false_eq_true, if_false]
  by_cases h95 : (!b && s.has_baddatacrc) = true
  · -- the stored data is bad and the candidate good: everything is removed first
    simp only [h95, if_true]
    have h8 : add_8k env s.remove_data Merge.Improved nd = some (s.remove_data, Merge.Improved) := by
      simp [add_8k, is_8k_sector, has_data, copies, remove_data]
    rw [h8]
    rcases add_compare_cases env s.remove_data Merge.Improved nd b m (by decide) with
      ⟨l, hl, hsub, _⟩ | ⟨r, hr, h⟩ | ⟨r, l, hr, hl, hsub, _, _⟩
    · exact absurd (by simpa [remove_data] using hsub) hl
    · exact Or.inr (Or.inl ⟨r, s.remove_data, hr, Or.inr rfl, hid', h⟩)
    · exact absurd (by simpa [remove_data] using hsub) hl
  · simp only [h95, Bool.false_eq_true, if_false]
    cases h8 : add_8k env s Merge.NewData nd with
    | none => exact Or.inl ⟨s.m_data, List.Sublist.refl _, rfl⟩
    | some p =>
      rcases p with ⟨s2, ret2⟩
      rcases add_8k_some env s s2 Merge.NewData ret2 nd h8 with ⟨h1, h2⟩ | ⟨h1, h2⟩
      · subst h1 h2
        rcases add_compare_cases env s2 Merge.NewData nd b m (by decide) with
          ⟨l, _, hsub, h⟩ | ⟨r, hr, h⟩ | ⟨r, l, hr, hl, hsub, hbad, h⟩
        · exact Or.inl ⟨l, hsub, h⟩
        · exact Or.inr (Or.inl ⟨r, s2, hr, Or.inl rfl, hid', h⟩)
        · have hb : b = true := by
            cases b
            · simp [has_baddatacrc, hbad] at h95
            · rfl
          exact Or.inr (Or.inr ⟨r, l, hr, hl, hsub, hbad, hb, hid', h⟩)
      · subst h1 h2
        rcases add_compare_cases env s.remove_data Merge.Improved nd b m (by decide) with
          ⟨l, hl, hsub, _⟩ | ⟨r, hr, h⟩ | ⟨r, l, hr, hl, hsub, _, _⟩
        · exact absurd (by simpa [remove_data] using hsub) hl
        · exact Or.inr (Or.inl ⟨r, s.remove_data, hr, Or.inr rfl, hid', h⟩)
        · exact absurd (by simpa [remove_data] using hsub) hl

theorem resize_length {α : Type} (z : α) (v : List α) (n : Nat) : (resize z v n).length = n := by
  simp [resize]; omega

theorem limit_copies_length_le (s : Sector) (n : Nat) :
    (s.limit_copies n).m_data.length ≤ s.m_data.length := by
  unfold limit_copies
  split_ifs with h
  · simp only [copies] at h
    simp [resize_length]; omega
  · exact le_refl _

theorem add_store_snd (env : Env) (s : Sector) (nd : Data) (b : Bool) (m : Byte) (ret : Merge) :
    (add_store env s nd b m ret).2.m_bad_data_crc = b ∧
      (add_store env s nd b m ret).2.m_data.length ≤ s.m_data.length + 1 := by
  unfold add_store
  refine ⟨rfl, ?_⟩
  have h := limit_copies_length_le { s with m_data := s.m_data ++ [nd] } env.maxcopies
  simpa using h

theorem add_multi_copy_ok (env : Env) (s : Sector) (nd : Data) (b : Bool) (m : Byte)
    (h : MultiCopyOk s) : MultiCopyOk (s.add env nd b m).2 := by
  unfold MultiCopyOk at *
  simp only [has_baddatacrc, copies] at *
  rcases add_cases env s nd b m with ⟨l, hsub, he⟩ | ⟨r, base, _, _, _, he⟩ |
    ⟨r, l, _, _, _, _, hb, _, he⟩
  · rw [he]
    intro hl
    exact h (lt_of_lt_of_le hl hsub.length_le)
  · rw [he]
    intro hl
    have := (add_store_snd env { base with m_data := [] } nd b m r).2
    simp only [List.length_nil] at this
    omega
  · rw [he]
    intro _
    rw [(add_store_snd env _ _ b m r).1, hb]

theorem merge_loop_multi_copy_ok (env : Env) (b : Bool) (m : Byte) (l : DataList) :
    ∀ (s : Sector) (ret : Merge), MultiCopyOk s → MultiCopyOk (merge_loop env b m s ret l).2 := by
  induction l with
  | nil => intro s ret h; simpa [merge_loop] using h
  | cons d rest ih =>
    intro s ret h
    simp only [merge_loop]
    exact ih _ _ (add_multi_copy_ok env s d b m h)

theorem merge_multi_copy_ok (env : Env) (s o : Sector) (h : MultiCopyOk s) :
    MultiCopyOk (s.merge env o).2.1 := by
  have h1 : MultiCopyOk
      (if s.has_badidcrc then ({ s with header := o.header }).set_badidcrc false else s) := by
    split_ifs
    · simpa [set_badidcrc, MultiCopyOk, copies, has_baddatacrc] using h
    · exact h
  unfold merge
  dsimp only
  generalize (if s.has_badidcrc then ({ s with header := o.header }).set_badidcrc false else s)
    = s1 at h1 ⊢
  by_cases ho : o.has_badidcrc = true
  · simpa [ho] using h
  · by_cases hb : (!s1.has_baddatacrc && o.has_baddatacrc) = true
    · simpa [ho, hb] using h1
    · simp only [ho, hb, Bool.false_eq_true, if_false]
      exact merge_loop_multi_copy_ok env _ _ _ _ _ h1

theorem merge_other_multi_copy_ok (env : Env) (s o : Sector) (h : MultiCopyOk o) :
    MultiCopyOk (s.merge env o).2.2 := by
  unfold merge
  dsimp only
  by_cases ho : o.has_badidcrc = true
  · simpa [ho] using h
  · simp only [ho, Bool.false_eq_true, if_false]
    split_ifs <;> first
      | exact h
      | simp [MultiCopyOk, copies]

theorem set_baddatacrc_multi_copy_ok (env : Env) (s : Sector) (bad : Bool)
    (h : MultiCopyOk s) : MultiCopyOk (s.set_baddatacrc env bad) := by
  rcases s with ⟨header, datarate, encoding, gap3, dam, bid, bdata, m_data⟩
  unfold MultiCopyOk at *
  cases bad
  · rcases m_data with _ | ⟨d, _ | ⟨d2, rest⟩⟩ <;>
      simp [set_baddatacrc, has_data, copies, has_baddatacrc, resize, data_size]
    split_ifs <;> simp
  · simp [set_baddatacrc, has_baddatacrc]

theorem add_scan_distinct (nd : Data) (ret : Merge) (rest : DataList) :
    ∀ (kept : DataList), (∀ d ∈ rest, d.length = nd.length) → nd ∉ rest →
      add_scan nd.length nd ret kept rest = Scan.scanned (kept ++ rest) ret := by
  induction rest with
  | nil => intro kept _ _; simp [add_scan]
  | cons d rest ih =>
    intro kept hlen hnew
    have hd : d.length = nd.length := hlen d (List.mem_cons_self _ _)
    have hne : ¬ (nd = d) := fun h => hnew (h ▸ List.mem_cons_self _ _)
    have hne' : ¬ (d = nd) := fun h => hne h.symm
    have ih' := ih (kept ++ [d]) (fun x hx => hlen x (List.mem_cons_of_mem _ hx))
      (fun h => hnew (List.mem_cons_of_mem _ h))
    have ht : List.take nd.length d = d := by rw [← hd]; exact List.take_length d
    unfold add_scan
    simp [hd, ht, hne, hne', ih']

theorem limit_copies_eq_take (s : Sector) (n : Nat) :
    s.limit_copies n = { s with m_data := s.m_data.take n } := by
  unfold limit_copies
  split_ifs with h
  · simp only [copies] at h
    simp [resize, Nat.sub_eq_zero_of_le (le_of_lt h)]
  · simp only [copies, not_lt] at h
    rw [List.take_of_length_le h]

theorem resize_of_length_eq {α : Type} (z : α) (v : List α) : resize z v v.length = v := by
  simp [resize]

theorem add_distinct_bad (env : Env) (s : Sector) (nd : Data) (m : Byte)
    (hid : s.m_bad_id_crc = false)
    (h8k : ¬ (s.datarate = DataRate._250K ∧ s.encoding = Encoding.MFM ∧ s.header.size = 6))
    (hlen : ∀ d ∈ s.m_data, d.length = nd.length) (hnew : nd ∉ s.m_data)
    (hst : s.m_data ≠ [] → s.m_bad_data_crc = true ∧ s.dam = m) :
    s.add env nd true m =
      (Merge.NewData,
        { s with m_data := (s.m_data ++ [nd]).take env.maxcopies, m_bad_data_crc := true,
                 dam := m }) := by
  have hscan := add_scan_distinct nd Merge.NewData s.m_data [] hlen hnew
  rcases s with ⟨header, datarate, encoding, gap3, dam, bid, bdata, m_data⟩
  simp only at hid hscan hst hlen h8k
  subst hid
  have h8 : ∀ (x : Byte) (y : Bool) (l : DataList),
      is_8k_sector ⟨header, datarate, encoding, gap3, x, false, y, l⟩ = false := by
    intro x y l
    simp only [is_8k_sector, Bool.and_eq_false_imp, Bool.and_eq_true, decide_eq_true_eq]
    intro h
    exact absurd ⟨h.1.1, h.1.2, h.2⟩ h8k
  cases m_data with
  | nil =>
    simp [Sector.add, add_compare, has_badidcrc, has_good_data, has_data, copies, add_8k, h8,
      add_scan, add_store, limit_copies_eq_take]
  | cons d rest =>
    obtain ⟨hb, hm⟩ := hst (by simp)
    subst hb hm
    have hfront : (front (d :: rest)).length = nd.length := hlen d (List.mem_cons_self _ _)
    have hmap : List.map (fun x => resize 0 x nd.length) (d :: rest) = d :: rest := by
      conv_rhs => rw [← List.map_id (d :: rest)]
      apply List.map_congr_left
      intro x hx
      rw [← hlen x hx]
      exact resize_of_length_eq 0 x
    simp only [List.nil_append] at hscan
    simp only [Sector.add, add_compare, has_badidcrc, has_good_data, has_baddatacrc, add_8k, h8,
      hscan, copies, hfront, min_self, hmap, resize_of_length_eq, add_store,
      limit_copies_eq_take]
    simp [h8, hscan, hfront, hmap, resize_of_length_eq]

theorem add_all_distinct (env : Env) (m : Byte) (L : Nat) (cands : List Data) :
    ∀ (s : Sector), s.m_bad_id_crc = false →
      ¬ (s.datarate = DataRate._250K ∧ s.encoding = Encoding.MFM ∧ s.header.size = 6) →
      (∀ d ∈ s.m_data ++ cands, d.length = L) → (s.m_data ++ cands).Nodup →
      s.m_data.length ≤ env.maxcopies →
      (s.m_data ≠ [] → s.m_bad_data_crc = true ∧ s.dam = m) →
      (add_all env s cands m).m_data = (s.m_data ++ cands).take env.maxcopies := by
  induction cands with
  | nil =>
    intro s _ _ _ _ hle _
    simp [add_all, List.take_of_length_le hle]
  | cons nd rest ih =>
    intro s hid h8k hlen hnd hle hst
    have hL : nd.length = L := hlen nd (by simp)
    have hnew : nd ∉ s.m_data := by
      intro h
      have := (List.nodup_append.mp hnd).2.2
      exact this h (List.mem_cons_self _ _)
    have hstep := add_distinct_bad env s nd m hid h8k
      (fun d hd => by rw [hL]; exact hlen d (List.mem_append_left _ hd)) hnew hst
    have hsub : ((s.m_data ++ [nd]).take env.maxcopies ++ rest).Sublist (s.m_data ++ nd :: rest) := by
      have h1 : ((s.m_data ++ [nd]).take env.maxcopies).Sublist (s.m_data ++ [nd]) :=
        List.take_sublist _ _
      have h2 := List.Sublist.append h1 (List.Sublist.refl rest)
      simpa using h2
    have hrec := ih
      { s with m_data := (s.m_data ++ [nd]).take env.maxcopies, m_bad_data_crc := true, dam := m }
      hid h8k (fun d hd => hlen d (hsub.subset hd)) (hnd.sublist hsub)
      (by simp) (fun _ => ⟨rfl, rfl⟩)
    simp only [add_all, List.foldl_cons] at hrec ⊢
    rw [hstep]
    simp only
    rw [hrec]
    have : s.m_data ++ nd :: rest = (s.m_data ++ [nd]) ++ rest := by simp
    rw [this]
    generalize s.m_data ++ [nd] = A
    rcases Nat.le_total A.length env.maxcopies with h | h
    · rw [List.take_of_length_le h]
    · rw [List.take_append_of_le_length h, List.take_append_of_le_length (by simp [h]),
        List.take_take, min_self]

theorem add_scan_cons (c : Nat) (nd : Data) (ret : Merge) (kept : DataList) (d : Data)
    (rest : DataList) :
    add_scan c nd ret kept (d :: rest) =
      match verdict c nd d with
      | Verdict.stop => Scan.ignored (kept ++ d :: rest)
      | Verdict.erase => add_scan c nd Merge.Improved kept rest
      | Verdict.keep => add_scan c nd ret (kept ++ [d]) rest := by
  rw [add_scan]
  unfold verdict
  split_ifs <;> rfl

theorem add_scan_rerun (c : Nat) (nd : Data) (rest : DataList) :
    ∀ (ret : Merge) (kept : DataList),
      ∃ l', (add_scan c nd ret kept rest).list = kept ++ l' ∧
        ∀ ret' kept',
          add_scan c nd ret' kept' l' =
            match add_scan c nd ret kept rest with
            | Scan.ignored _ => Scan.ignored (kept' ++ l')
            | Scan.scanned _ _ => Scan.scanned (kept' ++ l') ret' := by
  induction rest with
  | nil =>
    intro ret kept
    exact ⟨[], by simp [add_scan, Scan.list], fun ret' kept' => by simp [add_scan]⟩
  | cons d rest ih =>
    intro ret kept
    cases hv : verdict c nd d with
    | stop =>
      refine ⟨d :: rest, by simp [add_scan_cons, hv, Scan.list], fun ret' kept' => ?_⟩
      simp [add_scan_cons, hv]
    | erase =>
      obtain ⟨l', h1, h2⟩ := ih Merge.Improved kept
      refine ⟨l', by simpa [add_scan_cons, hv] using h1, fun ret' kept' => ?_⟩
      simpa [add_scan_cons, hv] using h2 ret' kept'
    | keep =>
      obtain ⟨l', h1, h2⟩ := ih ret (kept ++ [d])
      refine ⟨d :: l', by simpa [add_scan_cons, hv] using h1, fun ret' kept' => ?_⟩
      have := h2 ret' (kept' ++ [d])
      simpa [add_scan_cons, hv] using this

theorem add_scan_rerun_ignored (c : Nat) (nd : Data) (ret ret' : Merge) (rest l : DataList)
    (h : add_scan c nd ret [] rest = Scan.ignored l) :
    add_scan c nd ret' [] l = Scan.ignored l := by
  obtain ⟨l', h1, h2⟩ := add_scan_rerun c nd rest ret []
  rw [h] at h1
  have h3 := h2 ret' []
  rw [h] at h3
  simp only [Scan.list, List.nil_append] at h1 h3
  rw [h1]; exact h3

theorem add_scan_rerun_scanned (c : Nat) (nd : Data) (ret ret' ret3 : Merge)
    (rest l : DataList) (h : add_scan c nd ret [] rest = Scan.scanned l ret3) :
    add_scan c nd ret' [] l = Scan.scanned l ret' := by
  obtain ⟨l', h1, h2⟩ := add_scan_rerun c nd rest ret []
  rw [h] at h1
  have h3 := h2 ret' []
  rw [h] at h3
  simp only [Scan.list, List.nil_append] at h1 h3
  rw [h1]; exact h3

theorem add_store_fst (env : Env) (s : Sector) (nd : Data) (b : Bool) (m : Byte) (ret : Merge) :
    (add_store env s nd b m ret).1 = ret := rfl

theorem is_8k_sector_congr (s : Sector) (l : DataList) (hs : s.m_data ≠ []) (hl : l ≠ []) :
    is_8k_sector { s with m_data := l } = s.is_8k_sector := by
  have h1 : (s.m_data.length != 0) = true := by
    simpa using fun h => hs (List.eq_nil_of_length_eq_zero h)
  have h2 : (l.length != 0) = true := by
    simpa using fun h => hl (List.eq_nil_of_length_eq_zero h)
  simp only [is_8k_sector, has_data, copies, h1, h2]

theorem add_compare_rerun (env : Env) (s t : Sector) (ret ret' : Merge) (nd : Data) (b : Bool)
    (m : Byte) (hret : ret ≠ Merge.Unchanged)
    (h : add_compare env s ret nd b m = (Merge.Unchanged, t)) :
    (∃ l, l ≠ [] ∧ l.Sublist s.m_data ∧ t = { s with m_data := l }) ∧
      add_compare env t ret' nd b m = (Merge.Unchanged, t) := by
  have hsub := add_scan_sublist (if s.is_8k_sector then 0x1800 else nd.length) nd s.m_data ret []
  have hr := add_scan_ret (if s.is_8k_sector then 0x1800 else nd.length) nd s.m_data ret []
  unfold add_compare at h
  dsimp only at h
  cases hscan : add_scan (if s.is_8k_sector then 0x1800 else nd.length) nd ret [] s.m_data with
  | ignored l =>
    rw [hscan] at h hsub
    simp only [Prod.mk.injEq, true_and] at h
    simp only [Scan.list, List.nil_append] at hsub
    have hl : l ≠ [] := add_scan_ignored_ne_nil _ nd _ _ _ _ hscan
    have hs : s.m_data ≠ [] := fun h0 => hl (List.sublist_nil.mp (h0 ▸ hsub))
    refine ⟨⟨l, hl, hsub, h.symm⟩, ?_⟩
    subst h
    unfold add_compare
    dsimp only
    rw [is_8k_sector_congr s l hs hl, add_scan_rerun_ignored _ nd ret ret' _ l hscan]
  | scanned l ret3 =>
    rw [hscan] at h hsub
    simp only [Scan.list, List.nil_append] at hsub
    have hret3 : ret3 ≠ Merge.Unchanged := by
      rcases hr l ret3 hscan with h | h
      · rw [h]; exact hret
      · rw [h]; decide
    simp only [copies, has_baddatacrc] at h
    split_ifs at h with h1 h2 h3
    · simp only [Prod.mk.injEq, true_and] at h
      have hl : l ≠ [] := List.ne_nil_of_length_pos h1
      have hs : s.m_data ≠ [] := fun h0 => hl (List.sublist_nil.mp (h0 ▸ hsub))
      refine ⟨⟨l, hl, hsub, h.symm⟩, ?_⟩
      subst h
      unfold add_compare
      dsimp only
      rw [is_8k_sector_congr s l hs hl, add_scan_rerun_scanned _ nd ret ret' ret3 _ l hscan]
      simp only [copies, has_baddatacrc]
      rw [if_pos h1, if_pos h2]
    · simp only [Prod.mk.injEq, true_and] at h
      have hl : l ≠ [] := List.ne_nil_of_length_pos h1
      have hs : s.m_data ≠ [] := fun h0 => hl (List.sublist_nil.mp (h0 ▸ hsub))
      refine ⟨⟨l, hl, hsub, h.symm⟩, ?_⟩
      subst h
      unfold add_compare
      dsimp only
      rw [is_8k_sector_congr s l hs hl, add_scan_rerun_scanned _ nd ret ret' ret3 _ l hscan]
      simp only [copies, has_baddatacrc]
      rw [if_pos h1, if_neg h2, if_pos h3]
    · exact absurd (congrArg Prod.fst h) (by rw [add_store_fst]; exact hret3)
    · exact absurd (congrArg Prod.fst h) (by rw [add_store_fst]; exact hret3)

theorem add_store_ne_unchanged (env : Env) (s t : Sector) (nd : Data) (b : Bool) (m : Byte)
    (ret : Merge) (hret : ret ≠ Merge.Unchanged) :
    add_store env s nd b m ret ≠ (Merge.Unchanged, t) := fun h =>
  hret (by rw [← add_store_fst env s nd b m ret, h])

theorem add_compare_remove_data (env : Env) (s t : Sector) (nd : Data) (b : Bool) (m : Byte) :
    add_compare env s.remove_data Merge.Improved nd b m ≠ (Merge.Unchanged, t) := by
  intro h
  obtain ⟨⟨l, hl, hsub, _⟩, _⟩ :=
    add_compare_rerun env s.remove_data t Merge.Improved Merge.Improved nd b m (by decide) h
  exact hl (by simpa [remove_data] using hsub)

theorem add_8k_rerun (env : Env) (s : Sector) (nd : Data) (l : DataList)
    (hs : s.m_data ≠ []) (hl : l ≠ [])
    (h : add_8k env s Merge.NewData nd = some (s, Merge.NewData)) :
    add_8k env { s with m_data := l } Merge.NewData nd = none ∨
      add_8k env { s with m_data := l } Merge.NewData nd =
        some ({ s with m_data := l }, Merge.NewData) := by
  unfold add_8k at h ⊢
  rw [is_8k_sector_congr s l hs hl]
  by_cases h8 : s.is_8k_sector = true
  · rw [if_pos h8] at h ⊢
    by_cases hc : (!(env.ChecksumMethods nd).isEmpty) = true
    · rw [if_pos hc] at h
      simp at h
    · rw [if_neg hc]
      split_ifs <;> simp
  · rw [if_neg h8]
    exact Or.inr rfl

theorem add_unchanged_rerun (env : Env) (s t : Sector) (nd : Data) (b : Bool) (m : Byte)
    (h : s.add env nd b m = (Merge.Unchanged, t)) :
    t.add env nd b m = (Merge.Unchanged, t) := by
  unfold Sector.add at h
  by_cases hid : s.has_badidcrc = true
  · rw [if_pos hid] at h
    obtain rfl : s = t := by simpa using h
    unfold Sector.add
    rw [if_pos hid]
  rw [if_neg hid] at h
  by_cases hg : (b && s.has_good_data env) = true
  · rw [if_pos hg] at h
    obtain rfl : s = t := by simpa using h
    unfold Sector.add
    rw [if_neg hid, if_pos hg]
  rw [if_neg hg] at h
  dsimp only at h
  by_cases h95 : (!b && s.has_baddatacrc) = true
  · exfalso
    simp only [h95, if_true] at h
    have h8 : add_8k env s.remove_data Merge.Improved nd = some (s.remove_data, Merge.Improved) := by
      simp [add_8k, is_8k_sector, has_data, copies, remove_data]
    rw [h8] at h
    exact add_compare_remove_data env s t nd b m h
  simp only [h95, Bool.false_eq_true, if_false] at h
  cases h8 : add_8k env s Merge.NewData nd with
  | none =>
    rw [h8] at h
    obtain rfl : s = t := by simpa using h
    unfold Sector.add
    rw [if_neg hid, if_neg hg]
    simp only [h95, Bool.false_eq_true, if_false, h8]
  | some p =>
    rcases p with ⟨s2, ret2⟩
    rw [h8] at h
    simp only at h
    rcases add_8k_some env s s2 Merge.NewData ret2 nd h8 with ⟨h1, h2⟩ | ⟨h1, h2⟩
    · subst h1 h2
      obtain ⟨⟨l, hl, hsub, ht⟩, hrun⟩ :=
        add_compare_rerun env s2 t Merge.NewData Merge.NewData nd b m (by decide) h
      have hs : s2.m_data ≠ [] := fun h0 => hl (List.sublist_nil.mp (h0 ▸ hsub))
      have hidt : t.has_badidcrc = s2.has_badidcrc := by rw [ht]; rfl
      have hbt : t.has_baddatacrc = s2.has_baddatacrc := by rw [ht]; rfl
      unfold Sector.add
      rw [hidt, if_neg hid]
      by_cases hgt : (b && t.has_good_data env) = true
      · rw [if_pos hgt]
      rw [if_neg hgt]
      simp only [hbt, h95, Bool.false_eq_true, if_false]
      rcases add_8k_rerun env s2 nd l hs hl h8 with h9 | h9
      · rw [ht, h9]
      · rw [← ht] at h9
        rw [h9]
        exact hrun
    · subst h1 h2
      exact absurd h (add_compare_remove_data env s t nd b m)

theorem verdict_same_length (c : Nat) (nd d : Data) (h : d.length = nd.length) :
    verdict c nd d = Verdict.stop ∨ (verdict c nd d = Verdict.keep ∧ d ≠ nd) := by
  have ht : List.take nd.length d = d := by rw [← h]; exact List.take_length d
  unfold verdict
  by_cases h1 : d.length ≥ c ∧ nd.length ≥ c ∧ d.take c = nd.take c
  · exact Or.inl (if_pos h1)
  · rw [if_neg h1, if_pos (le_of_eq h.symm), ht]
    by_cases h2 : nd = d
    · rw [if_pos h2, if_pos (Or.inl h)]
      exact Or.inl rfl
    · rw [if_neg h2]
      exact Or.inr ⟨rfl, fun h3 => h2 h3.symm⟩

theorem add_scan_of_mem (c : Nat) (nd : Data) (ret : Merge) (rest : DataList) :
    ∀ (kept : DataList), (∀ d ∈ rest, d.length = nd.length) → nd ∈ rest →
      add_scan c nd ret kept rest = Scan.ignored (kept ++ rest) := by
  induction rest with
  | nil => intro kept _ h; simp at h
  | cons d rest ih =>
    intro kept hlen hmem
    rcases verdict_same_length c nd d (hlen d (List.mem_cons_self _ _)) with hv | ⟨hv, hne⟩
    · simp [add_scan_cons, hv]
    · have hmem' : nd ∈ rest := by
        rcases List.mem_cons.mp hmem with h | h
        · exact absurd h.symm hne
        · exact h
      have := ih (kept ++ [d]) (fun x hx => hlen x (List.mem_cons_of_mem _ hx)) hmem'
      simpa [add_scan_cons, hv] using this

theorem add_8k_unrecognised (env : Env) (t : Sector) (ret : Merge) (nd : Data)
    (h8 : ¬ (t.datarate = DataRate._250K ∧ t.encoding = Encoding.MFM ∧ t.header.size = 6 ∧
      env.ChecksumMethods nd ≠ [])) :
    add_8k env t ret nd = none ∨ add_8k env t ret nd = some (t, ret) := by
  unfold add_8k
  by_cases hk : t.is_8k_sector = true
  · rw [if_pos hk]
    have hc : ¬ ((!(env.ChecksumMethods nd).isEmpty) = true) := by
      intro hc
      apply h8
      simp only [is_8k_sector, Bool.and_eq_true, decide_eq_true_eq] at hk
      refine ⟨hk.1.1.1, hk.1.1.2, hk.1.2, ?_⟩
      intro h0
      simp [h0] at hc
    rw [if_neg hc]
    split_ifs <;> simp
  · rw [if_neg hk]
    exact Or.inr rfl

theorem add_of_mem (env : Env) (t : Sector) (nd : Data) (b : Bool) (m : Byte)
    (hid : t.m_bad_id_crc = false) (hflag : t.m_bad_data_crc = b)
    (hlen : ∀ d ∈ t.m_data, d.length = nd.length) (hmem : nd ∈ t.m_data)
    (h8 : ¬ (t.datarate = DataRate._250K ∧ t.encoding = Encoding.MFM ∧ t.header.size = 6 ∧
      env.ChecksumMethods nd ≠ [])) :
    t.add env nd b m = (Merge.Unchanged, t) := by
  unfold Sector.add
  have hid' : ¬ (t.has_badidcrc = true) := by simp [has_badidcrc, hid]
  rw [if_neg hid']
  by_cases hg : (b && t.has_good_data env) = true
  · rw [if_pos hg]
  rw [if_neg hg]
  have h95 : ¬ ((!b && t.has_baddatacrc) = true) := by simp [has_baddatacrc, hflag]
  simp only [h95, Bool.false_eq_true, if_false]
  rcases add_8k_unrecognised env t Merge.NewData nd h8 with h | h
  · rw [h]
  · rw [h]
    simp only [add_compare]
    rw [add_scan_of_mem _ nd Merge.NewData t.m_data [] hlen hmem]
    rfl

theorem add_store_eq (env : Env) (s : Sector) (nd : Data) (b : Bool) (m : Byte) (ret : Merge) :
    add_store env s nd b m ret =
      (ret, { s with m_data := (s.m_data ++ [nd]).take env.maxcopies, m_bad_data_crc := b,
                     dam := m }) := by
  simp [add_store, limit_copies_eq_take]

theorem add_stored_facts (env : Env) (s : Sector) (nd : Data) (b : Bool) (m : Byte)
    (h : (s.add env nd b m).1 ≠ Merge.Unchanged) :
    (s.add env nd b m).2.m_bad_id_crc = false ∧ (s.add env nd b m).2.m_bad_data_crc = b ∧
      (s.add env nd b m).2.dam = m ∧ (s.add env nd b m).2.header = s.header ∧
      (s.add env nd b m).2.datarate = s.datarate ∧
      (s.add env nd b m).2.encoding = s.encoding ∧
      ∃ n, ∀ d ∈ (s.add env nd b m).2.m_data, d.length = n := by
  rcases add_cases env s nd b m with ⟨l, _, he⟩ | ⟨r, base, _, hbase, hid, he⟩ |
    ⟨r, l, _, _, _, _, _, hid, he⟩
  · rw [he] at h
    exact absurd rfl h
  · rw [he, add_store_eq]
    rcases hbase with rfl | rfl
    · refine ⟨hid, rfl, rfl, rfl, rfl, rfl, nd.length, ?_⟩
      intro d hd
      have := List.mem_of_mem_take hd
      simp only [List.nil_append, List.mem_singleton] at this
      rw [this]
    · refine ⟨hid, rfl, rfl, rfl, rfl, rfl, nd.length, ?_⟩
      intro d hd
      have := List.mem_of_mem_take hd
      simp only [List.nil_append, List.mem_singleton] at this
      rw [this]
  · rw [he, add_store_eq]
    refine ⟨hid, rfl, rfl, rfl, rfl, rfl, min nd.length (front l).length, ?_⟩
    intro d hd
    have := List.mem_of_mem_take hd
    simp only [List.mem_append, List.mem_map, List.mem_singleton] at this
    rcases this with ⟨x, _, rfl⟩ | rfl
    · exact resize_length _ _ _
    · exact resize_length _ _ _

/-! ## The bad-header invariant under the mutators that keep it -/

theorem add_bad_header_ok (env : Env) (s : Sector) (nd : Data) (b : Bool) (m : Byte)
    (h : BadHeaderOk s) : BadHeaderOk (s.add env nd b m).2 := by
  by_cases hu : (s.add env nd b m).1 = Merge.Unchanged
  · rcases add_cases env s nd b m with ⟨l, hsub, he⟩ | ⟨r, base, hr, _, _, he⟩ |
      ⟨r, l, hr, _, _, _, _, _, he⟩
    · rw [he]
      intro hbad
      have h0 : s.m_data.length = 0 := h hbad
      have := hsub.length_le
      simp only [copies]
      omega
    · rw [he, add_store_fst] at hu
      exact absurd hu hr
    · rw [he, add_store_fst] at hu
      exact absurd hu hr
  · intro hbad
    have := (add_stored_facts env s nd b m hu).1
    simp [has_badidcrc, this] at hbad

theorem merge_loop_bad_header_ok (env : Env) (b : Bool) (m : Byte) (l : DataList) :
    ∀ (s : Sector) (ret : Merge), BadHeaderOk s → BadHeaderOk (merge_loop env b m s ret l).2 := by
  induction l with
  | nil => intro s ret h; simpa [merge_loop] using h
  | cons d rest ih =>
    intro s ret h
    simp only [merge_loop]
    exact ih _ _ (add_bad_header_ok env s d b m h)

/-- Every mutator other than `set_baddatacrc(false)` keeps the bad-header invariant. -/
theorem bad_header_ok_other_mutators (env : Env) (s : Sector) (h : BadHeaderOk s) :
    (∀ (dr : DataRate) (enc : Encoding) (hdr : Header) (gap3 : Int),
        BadHeaderOk (Sector.new dr enc hdr gap3)) ∧
      (∀ (nd : Data) (b : Bool) (m : Byte), BadHeaderOk (s.add env nd b m).2) ∧
      (∀ o : Sector, BadHeaderOk (s.merge env o).2.1) ∧
      (∀ r : Sector, BadHeaderOk (r.merge env s).2.2) ∧
      (∀ bad : Bool, BadHeaderOk (s.set_badidcrc bad)) ∧
      BadHeaderOk (s.set_baddatacrc env true) ∧
      BadHeaderOk s.remove_data ∧
      (∀ max_copies : Nat, BadHeaderOk (s.limit_copies max_copies)) ∧
      (∀ keep_crc : Bool, BadHeaderOk (s.remove_gapdata env keep_crc)) := by
  refine ⟨?_, ?_, ?_, ?_, ?_, ?_, ?_, ?_, ?_⟩
  · intro dr enc hdr gap3
    simp [BadHeaderOk, Sector.new, copies]
  · intro nd b m
    exact add_bad_header_ok env s nd b m h
  · intro o
    have h1 : BadHeaderOk
        (if s.has_badidcrc then ({ s with header := o.header }).set_badidcrc false else s) := by
      split_ifs
      · simp [set_badidcrc, BadHeaderOk, has_badidcrc]
      · exact h
    unfold merge
    dsimp only
    generalize (if s.has_badidcrc then ({ s with header := o.header }).set_badidcrc false else s)
      = s1 at h1 ⊢
    by_cases ho : o.has_badidcrc = true
    · simpa [ho] using h
    · by_cases hb : (!s1.has_baddatacrc && o.has_baddatacrc) = true
      · simpa [ho, hb] using h1
      · simp only [ho, hb, Bool.false_eq_true, if_false]
        exact merge_loop_bad_header_ok env _ _ _ _ _ h1
  · intro r
    unfold merge
    dsimp only
    by_cases ho : s.has_badidcrc = true
    · simpa [ho] using h
    · simp only [ho, Bool.false_eq_true, if_false]
      split_ifs <;> first
        | exact h
        | simp [BadHeaderOk, copies]
  · intro bad
    cases bad
    · simp [set_badidcrc, BadHeaderOk, has_badidcrc]
    · simp [BadHeaderOk, set_badidcrc, remove_data, copies]
  · simpa [BadHeaderOk, set_baddatacrc, has_badidcrc, copies] using h
  · simp [BadHeaderOk, remove_data, copies]
  · intro n hbad
    have h1 := limit_copies_length_le s n
    have h2 : (s.limit_copies n).has_badidcrc = s.has_badidcrc := by
      rw [limit_copies_eq_take]; rfl
    rw [h2] at hbad
    have h0 : s.m_data.length = 0 := h hbad
    simp only [copies]
    omega
  · intro k
    unfold remove_gapdata
    split_ifs
    · exact h
    · intro hbad
      simp only [copies, List.length_map]
      exact h hbad


/-! ## `add` on special states -/

/-- C1: on a sector with good data (`has_good_data()`), `add` with `bad_crc = true` returns
`Unchanged` and leaves the whole sector - copy list, bad-data-CRC flag, address mark,
header and bad-ID-CRC flag - exactly as it was, whatever the candidate and its mark. -/
theorem add_bad_on_good_data_unchanged (env : Env) (s : Sector) (new_data : Data)
    (new_dam : Byte) (h : s.has_good_data env = true) :
    s.add env new_data true new_dam = (Merge.Unchanged, s) := by
  unfold Sector.add
  simp [h]

/-- The sector reached by one good 2-byte read of a 512-byte sector has good data, so a bad
read of other bytes leaves it as it is. -/
theorem add_bad_on_good_data_unchanged_witness :
    (fresh512.add env512 [1, 2] false 0xfb).2.add env512 [7, 7, 7] true 0xf8 =
      (Merge.Unchanged, (fresh512.add env512 [1, 2] false 0xfb).2) :=
  add_bad_on_good_data_unchanged env512 _ [7, 7, 7] 0xf8 (by decide)

/-- C2 (evaluation at the failing input): the sector obtained from a fresh one by
`set_badidcrc(true)` and then `set_baddatacrc(false)` has its bad-ID-CRC flag set and holds
one synthesised copy; `add` on it returns `Unchanged` and leaves that copy in place, so
`copies()` is 1 afterwards, not 0. -/
theorem add_on_bad_header_keeps_copy :
    ((fresh512.set_badidcrc true).set_baddatacrc env512 false).has_badidcrc = true ∧
      (((fresh512.set_badidcrc true).set_baddatacrc env512 false).add env512 [1, 2] true
        0xfb).1 = Merge.Unchanged ∧
      (((fresh512.set_badidcrc true).set_baddatacrc env512 false).add env512 [1, 2] true
        0xfb).2.copies = 1 := by
  decide

/-- C3 (evaluation at the failing input): after two bad reads `[1, 2]` and `[5, 5]` with
the normal mark, a bad read `[1, 2, 7]` with the deleted mark `0xf8` first erases the copy
`[1, 2]` it extends and is then turned down by the address-mark arbitration: `add` returns
`Unchanged` although the copy list went from `[[1, 2], [5, 5]]` to `[[5, 5]]`. -/
theorem add_unchanged_after_erase :
    ((fresh512.add env512 [1, 2] true 0xfb).2.add env512 [5, 5] true 0xfb).2.m_data =
        [[1, 2], [5, 5]] ∧
      (((fresh512.add env512 [1, 2] true 0xfb).2.add env512 [5, 5] true 0xfb).2.add env512
        [1, 2, 7] true 0xf8).1 = Merge.Unchanged ∧
      (((fresh512.add env512 [1, 2] true 0xfb).2.add env512 [5, 5] true 0xfb).2.add env512
        [1, 2, 7] true 0xf8).2.m_data = [[5, 5]] := by
  decide

/-! ## Idempotence of `add` -/

/-- C4 (counterexample): with one bad 2-byte copy `[1, 2]` stored, the bad 3-byte candidate
`[9, 9, 9]` is stored cut to `[9, 9]`; adding `[9, 9, 9]` again finds `[9, 9]` to be a
shorter copy it extends, erases it and stores it anew, returning `Improved` rather than
`Unchanged`. -/
theorem add_twice_not_idempotent :
    ¬ ((((fresh512.add env512 [1, 2] true 0xfb).2.add env512 [9, 9, 9] true 0xfb).2.add env512
          [9, 9, 9] true 0xfb).1 = Merge.Unchanged ∧
        (((fresh512.add env512 [1, 2] true 0xfb).2.add env512 [9, 9, 9] true 0xfb).2.add env512
          [9, 9, 9] true 0xfb).2.copies =
        ((fresh512.add env512 [1, 2] true 0xfb).2.add env512 [9, 9, 9] true 0xfb).2.copies) := by
  decide

/-- C4 (amended): `add` is idempotent on repeated input whenever the first call changed
nothing or kept the candidate whole. For every sector state, candidate, `bad_crc` flag and
address mark: if the first call returns `Unchanged`, or leaves a copy byte-identical to the
candidate in the list while the sector is not an 8K-configured sector (250K, MFM, size
code 6) whose candidate has a recognized checksum, then the second call with the same
arguments returns `Unchanged` and leaves the sector, and so `copies()`, as the first call
left it. -/
theorem add_idempotent_when_kept (env : Env) (s : Sector) (nd : Data) (b : Bool) (m : Byte)
    (h : (s.add env nd b m).1 = Merge.Unchanged ∨
      (nd ∈ (s.add env nd b m).2.m_data ∧
        ¬ (s.datarate = DataRate._250K ∧ s.encoding = Encoding.MFM ∧ s.header.size = 6 ∧
          env.ChecksumMethods nd ≠ []))) :
    ((s.add env nd b m).2.add env nd b m).1 = Merge.Unchanged ∧
      ((s.add env nd b m).2.add env nd b m).2.copies = (s.add env nd b m).2.copies ∧
      ((s.add env nd b m).2.add env nd b m).2 = (s.add env nd b m).2 := by
  have key : (s.add env nd b m).2.add env nd b m = (Merge.Unchanged, (s.add env nd b m).2) := by
    by_cases hu : (s.add env nd b m).1 = Merge.Unchanged
    · exact add_unchanged_rerun env s _ nd b m (Prod.ext hu rfl)
    · rcases h with h | ⟨hmem, h8⟩
      · exact absurd h hu
      · obtain ⟨hid, hflag, _, hh, hd, he, n, hn⟩ := add_stored_facts env s nd b m hu
        refine add_of_mem env _ nd b m hid hflag ?_ hmem ?_
        · intro d hd'
          rw [hn d hd', hn nd hmem]
        · rw [hh, hd, he]
          exact h8
  rw [key]
  exact ⟨rfl, rfl, rfl⟩

/-- A first bad read `[1, 2]` of a fresh sector is kept whole; reading it again changes
nothing. -/
theorem add_idempotent_when_kept_witness :
    ((fresh512.add env512 [1, 2] true 0xfb).2.add env512 [1, 2] true 0xfb).1 = Merge.Unchanged ∧
      ((fresh512.add env512 [1, 2] true 0xfb).2.add env512 [1, 2] true 0xfb).2.copies =
        (fresh512.add env512 [1, 2] true 0xfb).2.copies ∧
      ((fresh512.add env512 [1, 2] true 0xfb).2.add env512 [1, 2] true 0xfb).2 =
        (fresh512.add env512 [1, 2] true 0xfb).2 :=
  add_idempotent_when_kept env512 fresh512 [1, 2] true 0xfb (Or.inr ⟨by decide, by decide⟩)

/-! ## The two invariants -/

/-- C5: the multi-copy invariant (`copies() > 1` implies the bad-data-CRC flag is set)
holds for a freshly constructed sector and is preserved by every mutator: `add`, `merge`
(for the receiver, and for the sector merged in), `set_badidcrc`, `set_baddatacrc`,
`remove_data`, `limit_copies` and `remove_gapdata`; no lower bound on the copy cap is
needed. -/
theorem multi_copy_invariant (env : Env) (s : Sector) (h : MultiCopyOk s) :
    (∀ (dr : DataRate) (enc : Encoding) (hdr : Header) (gap3 : Int),
        MultiCopyOk (Sector.new dr enc hdr gap3)) ∧
      (∀ (nd : Data) (b : Bool) (m : Byte), MultiCopyOk (s.add env nd b m).2) ∧
      (∀ o : Sector, MultiCopyOk (s.merge env o).2.1) ∧
      (∀ r : Sector, MultiCopyOk (r.merge env s).2.2) ∧
      (∀ bad : Bool, MultiCopyOk (s.set_badidcrc bad)) ∧
      (∀ bad : Bool, MultiCopyOk (s.set_baddatacrc env bad)) ∧
      MultiCopyOk s.remove_data ∧
      (∀ max_copies : Nat, MultiCopyOk (s.limit_copies max_copies)) ∧
      (∀ keep_crc : Bool, MultiCopyOk (s.remove_gapdata env keep_crc)) := by
  refine ⟨?_, ?_, ?_, ?_, ?_, ?_, ?_, ?_, ?_⟩
  · intro dr enc hdr gap3
    simp [MultiCopyOk, Sector.new, copies]
  · intro nd b m
    exact add_multi_copy_ok env s nd b m h
  · intro o
    exact merge_multi_copy_ok env s o h
  · intro r
    exact merge_other_multi_copy_ok env r s h
  · intro bad
    cases bad
    · exact h
    · simp [MultiCopyOk, set_badidcrc, remove_data, copies]
  · intro bad
    exact set_baddatacrc_multi_copy_ok env s bad h
  · simp [MultiCopyOk, remove_data, copies]
  · intro n
    intro hl
    have h1 := limit_copies_length_le s n
    have h2 : (s.limit_copies n).has_baddatacrc = s.has_baddatacrc := by
      rw [limit_copies_eq_take]; rfl
    rw [h2]
    exact h (lt_of_lt_of_le hl h1)
  · intro k
    unfold remove_gapdata
    split_ifs
    · exact h
    · intro hl
      simp only [copies, List.length_map] at hl
      exact h hl

/-- A sector holding two bad copies satisfies the invariant, and still does after any
further `add`. -/
theorem multi_copy_invariant_witness :
    MultiCopyOk ((fresh512.add env512 [1, 2] true 0xfb).2.add env512 [5, 5] true 0xfb).2 ∧
      ∀ (nd : Data) (b : Bool) (m : Byte), MultiCopyOk
        ((((fresh512.add env512 [1, 2] true 0xfb).2.add env512 [5, 5] true 0xfb).2).add
          env512 nd b m).2 :=
  ⟨by decide, (multi_copy_invariant env512 _ (by decide)).2.1⟩

/-- C6 (evaluation at the failing input): a fresh sector marked with `set_badidcrc(true)`
satisfies the bad-header invariant; `set_baddatacrc(false)` then synthesises a copy without
looking at the bad-ID-CRC flag, and the invariant is lost. -/
theorem set_baddatacrc_breaks_bad_header :
    BadHeaderOk (fresh512.set_badidcrc true) ∧
      ¬ BadHeaderOk ((fresh512.set_badidcrc true).set_baddatacrc env512 false) := by
  decide

/-! ## Replacement, precedence and the copy cap -/

/-- C7: completeness rule. On a non-8K sector with a good header CRC holding exactly one
copy of N bytes with the bad-data-CRC flag clear, a good-CRC candidate of N+k bytes
(k > 0) whose first N bytes are that copy makes `add` (with `max_copies >= 1`) return
`Improved` and leaves exactly one copy, the whole candidate. The bound of N by the nominal
size is not needed. -/
theorem add_longer_good_replaces (env : Env) (s : Sector) (old new_data : Data)
    (new_dam : Byte) (hcap : 1 ≤ env.maxcopies)
    (h8k : s.is_8k_sector = false) (hid : s.has_badidcrc = false)
    (hdata : s.m_data = [old]) (hgood : s.has_baddatacrc = false)
    (hlen : old.length < new_data.length) (hpre : new_data.take old.length = old) :
    (s.add env new_data false new_dam).1 = Merge.Improved ∧
      (s.add env new_data false new_dam).2.m_data = [new_data] := by
  have hne : ¬ (new_data.length ≤ old.length) := by omega
  have hcap2 : ¬ (env.maxcopies < 1) := by omega
  unfold Sector.add Sector.add_compare
  simp [hid, hgood, add_8k, h8k, hdata, add_scan, hne, hpre, add_store, limit_copies, copies,
    hcap2]

/-- A good 2-byte read followed by a good 4-byte read that starts with the same two
bytes. -/
theorem add_longer_good_replaces_witness :
    ((fresh512.add env512 [1, 2] false 0xfb).2.add env512 [1, 2, 3, 4] false 0xfb).1 =
        Merge.Improved ∧
      ((fresh512.add env512 [1, 2] false 0xfb).2.add env512 [1, 2, 3, 4] false 0xfb).2.m_data =
        [[1, 2, 3, 4]] :=
  add_longer_good_replaces env512 _ [1, 2] [1, 2, 3, 4] 0xfb (by decide) (by decide)
    (by decide) (by decide) (by decide) (by decide) (by decide)

/-- C8: address-mark precedence. On a non-8K sector with a good header CRC, address mark
`0xfb`, the bad-data-CRC flag set and exactly one copy, a bad-CRC candidate with another
mark whose content is neither an initial segment of the stored copy nor extends it makes
`add` return `Unchanged` and leaves the sector, in particular the stored copy and the mark,
as it was. -/
theorem add_dam_precedence (env : Env) (s : Sector) (old new_data : Data) (new_dam : Byte)
    (h8k : s.is_8k_sector = false) (hid : s.has_badidcrc = false) (hdam : s.dam = 0xfb)
    (hbad : s.has_baddatacrc = true) (hdata : s.m_data = [old]) (hnd : new_dam ≠ 0xfb)
    (h1 : new_data.take old.length ≠ old) (h2 : old.take new_data.length ≠ new_data) :
    s.add env new_data true new_dam = (Merge.Unchanged, s) := by
  rcases s with ⟨header, datarate, encoding, gap3, dam, bid, bdata, m_data⟩
  simp only [has_badidcrc, has_baddatacrc] at hid hbad hdam hdata
  subst hid hbad hdam hdata
  have h1' : ¬ (old = new_data.take old.length) := fun h => h1 h.symm
  have hnd' : ¬ ((251 : Byte) = new_dam) := fun h => hnd h.symm
  have h2' : ¬ (new_data = old.take new_data.length) := fun h => h2 h.symm
  unfold Sector.add Sector.add_compare
  simp [has_badidcrc, has_baddatacrc, has_good_data, add_8k, h8k, add_scan, h1', h2', h2,
    copies, hnd']

/-- One bad copy `[1, 2]` under the normal mark against the bad candidate `[1, 3]` under
the deleted mark. -/
theorem add_dam_precedence_witness :
    (fresh512.add env512 [1, 2] true 0xfb).2.add env512 [1, 3] true 0xf8 =
      (Merge.Unchanged, (fresh512.add env512 [1, 2] true 0xfb).2) :=
  add_dam_precedence env512 _ [1, 2] [1, 3] 0xf8 (by decide) (by decide) (by decide)
    (by decide) (by decide) (by decide) (by decide) (by decide)

/-- C9: copy cap. Adding pairwise distinct bad-CRC candidates of one length under one
address mark, one after another, to a freshly constructed sector that is not 8K-configured
leaves `copies() = min(n, m)` for the cap `m`, the retained copies being the first
`min(n, m)` candidates in insertion order. -/
theorem copy_cap (env : Env) (dr : DataRate) (enc : Encoding) (hdr : Header) (gap3 : Int)
    (cands : List Data) (m : Byte) (L : Nat)
    (h8k : ¬ (dr = DataRate._250K ∧ enc = Encoding.MFM ∧ hdr.size = 6))
    (hlen : ∀ d ∈ cands, d.length = L) (hnd : cands.Nodup) :
    (add_all env (Sector.new dr enc hdr gap3) cands m).copies =
        min cands.length env.maxcopies ∧
      (add_all env (Sector.new dr enc hdr gap3) cands m).m_data =
        cands.take (min cands.length env.maxcopies) := by
  have h := add_all_distinct env m L cands (Sector.new dr enc hdr gap3) rfl h8k
    (by simpa [Sector.new] using hlen) (by simpa [Sector.new] using hnd)
    (by simp [Sector.new]) (by simp [Sector.new])
  simp only [Sector.new, List.nil_append] at h
  have ht : cands.take (min cands.length env.maxcopies) = cands.take env.maxcopies := by
    rcases Nat.le_total cands.length env.maxcopies with h1 | h1
    · rw [min_eq_left h1, List.take_of_length_le h1, List.take_of_length_le (le_refl _)]
    · rw [min_eq_right h1]
  refine ⟨?_, ?_⟩
  · simp only [copies, Sector.new]
    rw [h, List.length_take, min_comm]
  · simp only [Sector.new]
    rw [h, ht]

/-- With a cap of two, three distinct one-byte bad reads leave the first two. -/
theorem copy_cap_witness :
    (add_all { env512 with maxcopies := 2 } (Sector.new DataRate._500K Encoding.MFM hdr512 0)
        [[1], [2], [3]] 0xfb).copies = min 3 2 ∧
      (add_all { env512 with maxcopies := 2 } (Sector.new DataRate._500K Encoding.MFM hdr512 0)
        [[1], [2], [3]] 0xfb).m_data = [[1], [2]] :=
  copy_cap { env512 with maxcopies := 2 } DataRate._500K Encoding.MFM hdr512 0
    [[1], [2], [3]] 0xfb 1 (by decide) (by decide) (by decide)

/-- C10: 8K checksum precedence. On an 8K sector (250K, MFM, size code 6) with a good
header CRC holding one copy flagged bad-CRC, a candidate for which the checksum recognizer
returns a non-empty set makes `add` (with `max_copies >= 1`) return `Improved` and leaves
exactly one copy, the candidate, whatever the candidate's `bad_crc` flag; neither the
length of the stored copy nor its own checksum matters. -/
theorem add_8k_recognised (env : Env) (s : Sector) (old new_data : Data) (bad_crc : Bool)
    (new_dam : Byte) (hcap : 1 ≤ env.maxcopies)
    (hrate : s.datarate = DataRate._250K) (henc : s.encoding = Encoding.MFM)
    (hsize : s.header.size = 6) (hid : s.has_badidcrc = false)
    (hdata : s.m_data = [old]) (hbad : s.has_baddatacrc = true)
    (hnew : env.ChecksumMethods new_data ≠ []) :
    (s.add env new_data bad_crc new_dam).1 = Merge.Improved ∧
      (s.add env new_data bad_crc new_dam).2.m_data = [new_data] := by
  have hcap2 : ¬ (env.maxcopies < 1) := by omega
  have hg : s.has_good_data env = false := by simp [has_good_data, hbad]
  unfold Sector.add Sector.add_compare
  cases bad_crc <;>
    simp [hid, hg, hbad, add_8k, is_8k_sector, has_data, remove_data, hrate, henc, hsize, hdata,
      add_scan, copies, add_store, limit_copies, hcap2, hnew]

/-- The stored copy of 6144 zero bytes is not recognized by `env8k`; the candidate `[0xff]`
is, and replaces it. -/
theorem add_8k_recognised_witness :
    env8k.ChecksumMethods (List.replicate 6144 0) = [] ∧
      (stored8k.add env8k [0xff] true 0xfb).1 = Merge.Improved ∧
      (stored8k.add env8k [0xff] true 0xfb).2.m_data = [[0xff]] :=
  ⟨by
      simp only [env8k, List.getLast?_replicate]
      decide,
    add_8k_recognised env8k stored8k (List.replicate 6144 0) [0xff] true 0xfb (by decide)
      rfl rfl rfl rfl rfl rfl (by decide)⟩

/-! ## `merge` -/

theorem merge_loop_outcome (env : Env) (b : Bool) (m : Byte) (l : DataList) :
    ∀ (s : Sector) (ret : Merge),
      (merge_loop env b m s ret l).1 =
        if ret = Merge.Improved ∨ Merge.Improved ∈ merge_outcomes env b m s l then Merge.Improved
        else if ret = Merge.NewData ∨ Merge.NewData ∈ merge_outcomes env b m s l then
          Merge.NewData
        else Merge.Unchanged := by
  induction l with
  | nil => intro s ret; cases ret <;> simp [merge_loop, merge_outcomes]
  | cons d rest ih =>
    intro s ret
    simp only [merge_loop, merge_outcomes, List.mem_cons]
    rw [ih]
    generalize (s.add env d b m).1 = r
    generalize merge_outcomes env b m (s.add env d b m).2 rest = outs
    by_cases h1 : Merge.Improved ∈ outs <;> by_cases h2 : Merge.NewData ∈ outs <;>
      cases ret <;> cases r <;> simp [h1, h2]

/-- C11 (evaluation at the failing input): a freshly constructed receiver holds no copies
and the other sector, with the same header, data rate and encoding and a good header CRC,
holds one bad-CRC copy `[1, 2]`. `merge` returns `Unchanged` before its loop: the receiver
stays empty and the other sector keeps its copy, although `add` on the same receiver
stores that copy (`NewData`). -/
theorem merge_into_empty_skips_bad_data :
    fresh512.copies = 0 ∧
      (fresh512.add env512 [1, 2] true 0xfb).2.has_badidcrc = false ∧
      (fresh512.add env512 [1, 2] true 0xfb).2.m_data = [[1, 2]] ∧
      fresh512.merge env512 (fresh512.add env512 [1, 2] true 0xfb).2 =
        (Merge.Unchanged, fresh512, (fresh512.add env512 [1, 2] true 0xfb).2) ∧
      merge_adds env512 fresh512 (fresh512.add env512 [1, 2] true 0xfb).2 = [] ∧
      (fresh512.add env512 [1, 2] true 0xfb).1 = Merge.NewData := by
  decide

/-- C12 (counterexample): merging a sector that holds one good copy `[1, 2]` into a
freshly constructed receiver with the same header repairs no header and makes one `add`,
which returns `NewData`; `merge` returns `NewData`. -/
theorem merge_returns_newdata :
    merge_repairs fresh512 (fresh512.add env512 [1, 2] false 0xfb).2 = false ∧
      merge_adds env512 fresh512 (fresh512.add env512 [1, 2] false 0xfb).2 = [Merge.NewData] ∧
      (fresh512.merge env512 (fresh512.add env512 [1, 2] false 0xfb).2).1 = Merge.NewData := by
  decide

/-- C12 (amended): the outcome of `merge` is three-valued. For every receiver and other
sector, `merge` returns `Improved` if the header was repaired or any individual `add`
returned `Improved`; otherwise `NewData` if any individual `add` returned `NewData`; and
`Unchanged` otherwise. -/
theorem merge_outcome (env : Env) (s o : Sector) :
    (s.merge env o).1 =
      if merge_repairs s o = true ∨ Merge.Improved ∈ merge_adds env s o then Merge.Improved
      else if Merge.NewData ∈ merge_adds env s o then Merge.NewData
      else Merge.Unchanged := by
  unfold merge merge_adds merge_repairs
  dsimp only
  by_cases ho : o.has_badidcrc = true
  · simp [ho]
  · simp only [ho, Bool.false_eq_true, if_false]
    generalize (if s.has_badidcrc then ({ s with header := o.header }).set_badidcrc false else s)
      = s1
    by_cases hb : (!s1.has_baddatacrc && o.has_baddatacrc) = true
    · by_cases hs : s.has_badidcrc = true <;> simp [hb, hs]
    · simp only [hb, Bool.false_eq_true, if_false, merge_loop_outcome]
      by_cases hs : s.has_badidcrc = true <;> simp [hs]

/-! ## Auxiliary mutators, size codes and equality -/

theorem fill_byte_of_byte (env : Env) (f : Byte) (hf : env.fill = (f.val : Int)) :
    fill_byte env = f := by
  unfold fill_byte
  have h0 : env.fill ≥ 0 := by rw [hf]; exact Int.natCast_nonneg _
  rw [if_pos h0, hf]
  apply Fin.ext
  have hlt : f.val < 256 := f.isLt
  have h1 : ((f.val : Int) % 256).toNat = f.val := by omega
  rw [h1]
  simp [Fin.ofNat, Nat.mod_eq_of_lt hlt]

/-- C13: on a sector with no data copies, whatever its nominal size `n` and the configured
fill byte `f` in 0..255, `set_baddatacrc(false)` leaves exactly one copy of `n` bytes, each
equal to `f`, and the bad-data-CRC flag clear. -/
theorem set_baddatacrc_synthesises (env : Env) (s : Sector) (f : Byte)
    (hdata : s.m_data = []) (hfill : env.fill = (f.val : Int)) :
    (s.set_baddatacrc env false).m_data = [List.replicate (s.size env) f] ∧
      (s.set_baddatacrc env false).has_baddatacrc = false := by
  have hf := fill_byte_of_byte env f hfill
  simp [set_baddatacrc, has_data, copies, hdata, hf, size, has_baddatacrc]

/-- Nominal size 128 and fill byte `0xe5`: one copy of 128 bytes `0xe5`. -/
theorem set_baddatacrc_synthesises_witness :
    ((Sector.new DataRate._250K Encoding.FM hdr512 0).set_baddatacrc
        { env512 with fill := 0xe5, sector_size := fun _ => 128 } false).m_data =
        [List.replicate 128 0xe5] ∧
      ((Sector.new DataRate._250K Encoding.FM hdr512 0).set_baddatacrc
        { env512 with fill := 0xe5, sector_size := fun _ => 128 } false).has_baddatacrc =
        false :=
  set_baddatacrc_synthesises { env512 with fill := 0xe5, sector_size := fun _ => 128 }
    (Sector.new DataRate._250K Encoding.FM hdr512 0) 0xe5 rfl rfl

/-- C15: `add` is not commutative. On a freshly constructed sector with a good header CRC,
the bad-CRC candidates `[1, 2]` under the normal mark `0xfb` and `[1, 3]` under the deleted
mark `0xf8` leave `[[1, 2]]` when added in this order (the second is turned down by the
address-mark arbitration) and `[[1, 3], [1, 2]]` in the other order. -/
theorem add_not_commutative :
    ∃ (dr : DataRate) (enc : Encoding) (hdr : Header) (gap3 : Int) (d1 d2 : Data)
      (b1 b2 : Bool) (m1 m2 : Byte),
      (Sector.new dr enc hdr gap3).has_badidcrc = false ∧
        (((Sector.new dr enc hdr gap3).add env512 d1 b1 m1).2.add env512 d2 b2 m2).2.m_data ≠
          (((Sector.new dr enc hdr gap3).add env512 d2 b2 m2).2.add env512 d1 b1 m1).2.m_data :=
  ⟨DataRate._500K, Encoding.MFM, hdr512, 0, [1, 2], [1, 3], true, true, 0xfb, 0xf8,
    by decide, by decide⟩

/-- C16 (counterexample): the size code -1 is left as it is by `SizeCodeToRealSizeCode`,
not raised to 0, so `SizeCodeToLength` shifts by a negative count and does not yield
`128 * 2^clamp(-1, 0, 8) = 128`. -/
theorem SizeCodeToLength_negative :
    SizeCodeToRealSizeCode (-1) = -1 ∧
      SizeCodeToLength (-1) ≠ some (128 * 2 ^ (max 0 (min (-1 : Int) 8)).toNat) := by
  decide

/-- C16 (amended): for every size code that is not negative, `SizeCodeToLength(code)` is
`128 * 2^min(code, 8)`, one of 128, 256, ..., 32768; `SizeCodeToRealSizeCode` maps every
code above 7 to 8 and leaves every other code, the negative ones included, as it is. -/
theorem SizeCodeToLength_eq (code : Int) (h : 0 ≤ code) :
    SizeCodeToLength code = some (128 * 2 ^ (min code 8).toNat) ∧
      (∀ c : Int, 7 < c → SizeCodeToRealSizeCode c = 8) ∧
      (∀ c : Int, c ≤ 7 → SizeCodeToRealSizeCode c = c) ∧
      SizeCodeToLength code ∈
        [some 128, some 256, some 512, some 1024, some 2048, some 4096, some 8192, some 16384,
          some 32768] := by
  have hreal : SizeCodeToRealSizeCode code = min code 8 := by
    unfold SizeCodeToRealSizeCode
    split_ifs with h7
    · exact (min_eq_left (by omega)).symm
    · exact (min_eq_right (by omega)).symm
  have hlen : SizeCodeToLength code = some (128 * 2 ^ (min code 8).toNat) := by
    unfold SizeCodeToLength
    rw [hreal, if_pos (le_min h (by decide))]
  refine ⟨hlen, ?_, ?_, ?_⟩
  · intro c hc
    unfold SizeCodeToRealSizeCode
    rw [if_neg (by omega)]
  · intro c hc
    unfold SizeCodeToRealSizeCode
    rw [if_pos hc]
  · rw [hlen]
    have hk : (min code 8).toNat ≤ 8 := by
      have : min code 8 ≤ 8 := min_le_right _ _
      omega
    generalize (min code 8).toNat = k at hk
    interval_cases k <;> simp

/-- Size code 3 gives 1024 bytes. -/
theorem SizeCodeToLength_eq_witness : SizeCodeToLength 3 = some 1024 :=
  ((SizeCodeToLength_eq 3 (by decide)).1).trans (by decide)

/-- C20 (counterexample): a sector whose only copy has 2 of the 512 nominal bytes is not
equal to itself. -/
theorem operator_eq_short_data :
    operator_eq env512 (fresh512.add env512 [1, 2] false 0xfb).2
      (fresh512.add env512 [1, 2] false 0xfb).2 = false := by
  decide

/-- C20 (amended): for every sector `s`, `s == s` is true exactly when `s` holds no copies
or its first copy has at least the nominal size. -/
theorem operator_eq_self (env : Env) (s : Sector) :
    operator_eq env s s = true ↔ (s.copies = 0 ∨ s.size env ≤ s.data_size) := by
  unfold operator_eq
  simp only [ne_eq, not_true_eq_false, if_false, and_self, or_self, copies]
  by_cases h0 : s.m_data.length = 0
  · simp [h0]
  · by_cases h1 : s.data_size < s.size env
    · simp only [h0, h1, if_false, if_true, false_or]
      constructor
      · intro h; exact absurd h (by decide)
      · intro h; omega
    · simp only [h0, h1, if_false, false_or, decide_True]
      constructor
      · intro _; omega
      · intro _; trivial

/-! ## `remove_gapdata` -/

theorem resize_eq_take {α : Type} (z : α) (v : List α) (n : Nat) (h : n ≤ v.length) :
    resize z v n = v.take n := by
  simp [resize, Nat.sub_eq_zero_of_le h]

theorem remove_gapdata_of_gapdata (env : Env) (s : Sector)
    (hg : s.has_gapdata env = true) :
    (s.remove_gapdata env false).m_data = s.m_data.map fun d => resize 0 d (s.size env) := by
  simp [remove_gapdata, hg]

/-- C14 (counterexample): a sector with 512 nominal bytes whose first copy has 513 bytes
and whose second copy is the single byte `4`. The first copy has gap data, so every copy is
resized to 512 bytes: the second copy, shorter than nominal, does not stay as it is but is
padded with zero bytes to 512 bytes. -/
theorem remove_gapdata_pads_short_copy :
    (({ fresh512 with m_bad_data_crc := true, m_data := [List.replicate 513 0, [4]] } :
        Sector).remove_gapdata env512 false).m_data.drop 1 =
      [4 :: List.replicate 511 0] := by
  rw [remove_gapdata_of_gapdata env512 _
    (by simp only [has_gapdata, data_size, List.length_replicate]; decide)]
  rfl

theorem remove_gapdata_map_of_aligned (env : Env) (s : Sector) (keep_crc : Bool)
    (h : Aligned s) :
    (s.remove_gapdata env keep_crc).m_data =
      s.m_data.map (fun c =>
        if c.length ≤ s.size env then c
        else if keep_crc = true ∧ s.has_baddatacrc = true ∧ s.size env + 2 ≤ c.length then
          c.take (s.size env + 2)
        else c.take (s.size env)) := by
  unfold remove_gapdata
  by_cases hg : s.has_gapdata env = true
  · -- the first copy is longer than nominal, and so is every copy
    simp only [hg, Bool.not_true, Bool.false_eq_true, if_false]
    apply List.map_congr_left
    intro c hc
    have hlong : s.size env < c.length := by
      cases hm : s.m_data with
      | nil => rw [hm] at hc; simp at hc
      | cons d rest =>
        have hd : d ∈ s.m_data := by rw [hm]; exact List.mem_cons_self _ _
        have : s.data_size = d.length := by simp [data_size, hm]
        simp only [has_gapdata, decide_eq_true_eq, this] at hg
        rw [h c hc d hd]
        exact hg
    rw [if_neg (not_le.mpr hlong)]
    by_cases hk : keep_crc = true ∧ s.has_baddatacrc = true ∧ s.size env + 2 ≤ c.length
    · rw [if_pos hk]
      have : (keep_crc && s.has_baddatacrc && decide (c.length ≥ s.size env + 2)) = true := by
        simp [hk.1, hk.2.1, hk.2.2]
      simp only [this, if_true]
      exact resize_eq_take 0 c _ hk.2.2
    · rw [if_neg hk]
      have : ¬ ((keep_crc && s.has_baddatacrc && decide (c.length ≥ s.size env + 2)) = true) := by
        intro h3
        apply hk
        simpa [Bool.and_eq_true, and_assoc] using h3
      simp only [this, Bool.false_eq_true, if_false]
      exact resize_eq_take 0 c _ (le_of_lt hlong)
  · -- the first copy is not longer than nominal, and neither is any copy
    simp only [hg, Bool.not_false, if_true]
    symm
    conv_rhs => rw [← List.map_id s.m_data]
    apply List.map_congr_left
    intro c hc
    have hshort : c.length ≤ s.size env := by
      cases hm : s.m_data with
      | nil => rw [hm] at hc; simp at hc
      | cons d rest =>
        have hd : d ∈ s.m_data := by rw [hm]; exact List.mem_cons_self _ _
        have : s.data_size = d.length := by simp [data_size, hm]
        simp only [has_gapdata, decide_eq_true_eq, this, not_lt] at hg
        rw [h c hc d hd]
        exact hg
    rw [if_pos hshort]
    rfl

/-- C14 (amended): on every sector whose retained copies all have the same length (as in
every state reached through the mutators), `remove_gapdata(keep_crc)` acts copy by copy.
With nominal size `n`, a copy of length `L` stays as it is if `L <= n`, becomes its first
`n+2` bytes if `keep_crc` is true, the bad-data-CRC flag is set and `L >= n+2`, and its
first `n` bytes otherwise; the number of copies, the flags, the address mark and the header
are unchanged. -/
theorem remove_gapdata_copywise (env : Env) (s : Sector) (keep_crc : Bool) (h : Aligned s) :
    (s.remove_gapdata env keep_crc).m_data =
        s.m_data.map (fun c =>
          if c.length ≤ s.size env then c
          else if keep_crc = true ∧ s.has_baddatacrc = true ∧ s.size env + 2 ≤ c.length then
            c.take (s.size env + 2)
          else c.take (s.size env)) ∧
      (s.remove_gapdata env keep_crc).copies = s.copies ∧
      (s.remove_gapdata env keep_crc).has_baddatacrc = s.has_baddatacrc ∧
      (s.remove_gapdata env keep_crc).has_badidcrc = s.has_badidcrc ∧
      (s.remove_gapdata env keep_crc).dam = s.dam ∧
      (s.remove_gapdata env keep_crc).header = s.header := by
  refine ⟨remove_gapdata_map_of_aligned env s keep_crc h, ?_⟩
  unfold remove_gapdata
  split_ifs <;> simp [copies, has_baddatacrc, has_badidcrc]

/-- Nominal size 512, bad data CRC, `keep_crc = true`: a copy of 516 bytes becomes its
first 514 bytes. -/
theorem remove_gapdata_copywise_witness :
    (({ fresh512 with m_bad_data_crc := true, m_data := [List.replicate 516 7] } :
        Sector).remove_gapdata env512 true).m_data = [List.replicate 514 7] :=
  (remove_gapdata_copywise env512
    { fresh512 with m_bad_data_crc := true, m_data := [List.replicate 516 7] } true
    (by intro d1 h1 d2 h2
        simp only [List.mem_singleton] at h1 h2
        rw [h1, h2])).1.trans
    (by simp only [List.map, List.length_replicate, List.take_replicate]
        rfl)

/-! ## Length alignment -/

theorem aligned_of_sublist (s : Sector) (l : DataList) (hsub : l.Sublist s.m_data)
    (h : Aligned s) : Aligned { s with m_data := l } :=
  fun d1 h1 d2 h2 => h d1 (hsub.subset h1) d2 (hsub.subset h2)

theorem aligned_of_length_le_one (s : Sector) (h : s.m_data.length ≤ 1) : Aligned s := by
  intro d1 h1 d2 h2
  rcases hm : s.m_data with _ | ⟨d, _ | ⟨e, rest⟩⟩
  · rw [hm] at h1; simp at h1
  · rw [hm] at h1 h2
    simp only [List.mem_singleton] at h1 h2
    rw [h1, h2]
  · rw [hm] at h; simp at h

theorem add_aligned (env : Env) (s : Sector) (nd : Data) (b : Bool) (m : Byte)
    (h : Aligned s) : Aligned (s.add env nd b m).2 := by
  by_cases hu : (s.add env nd b m).1 = Merge.Unchanged
  · rcases add_cases env s nd b m with ⟨l, hsub, he⟩ | ⟨r, base, hr, _, _, he⟩ |
      ⟨r, l, hr, _, _, _, _, _, he⟩
    · rw [he]
      exact aligned_of_sublist s l hsub h
    · rw [he, add_store_fst] at hu
      exact absurd hu hr
    · rw [he, add_store_fst] at hu
      exact absurd hu hr
  · obtain ⟨_, _, _, _, _, _, n, hn⟩ := add_stored_facts env s nd b m hu
    intro d1 h1 d2 h2
    rw [hn d1 h1, hn d2 h2]

theorem merge_loop_aligned (env : Env) (b : Bool) (m : Byte) (l : DataList) :
    ∀ (s : Sector) (ret : Merge), Aligned s → Aligned (merge_loop env b m s ret l).2 := by
  induction l with
  | nil => intro s ret h; simpa [merge_loop] using h
  | cons d rest ih =>
    intro s ret h
    simp only [merge_loop]
    exact ih _ _ (add_aligned env s d b m h)

theorem merge_aligned (env : Env) (s o : Sector) (h : Aligned s) :
    Aligned (s.merge env o).2.1 := by
  have h1 : Aligned
      (if s.has_badidcrc then ({ s with header := o.header }).set_badidcrc false else s) := by
    split_ifs
    · exact h
    · exact h
  unfold merge
  dsimp only
  generalize (if s.has_badidcrc then ({ s with header := o.header }).set_badidcrc false else s)
    = s1 at h1 ⊢
  by_cases ho : o.has_badidcrc = true
  · simpa [ho] using h
  · by_cases hb : (!s1.has_baddatacrc && o.has_baddatacrc) = true
    · simpa [ho, hb] using h1
    · simp only [ho, hb, Bool.false_eq_true, if_false]
      exact merge_loop_aligned env _ _ _ _ _ h1

theorem merge_other_aligned (env : Env) (s o : Sector) (h : Aligned o) :
    Aligned (s.merge env o).2.2 := by
  unfold merge
  dsimp only
  by_cases ho : o.has_badidcrc = true
  · simpa [ho] using h
  · simp only [ho, Bool.false_eq_true, if_false]
    split_ifs <;> first
      | exact h
      | (intro d1 h1; simp at h1)

theorem set_baddatacrc_aligned (env : Env) (s : Sector) (bad : Bool) (h : Aligned s) :
    Aligned (s.set_baddatacrc env bad) := by
  cases bad
  · rcases hm : s.m_data with _ | ⟨d, _ | ⟨e, rest⟩⟩
    · apply aligned_of_length_le_one
      simp [set_baddatacrc, has_data, copies, hm]
    · apply aligned_of_length_le_one
      simp [set_baddatacrc, has_data, copies, hm]
    · apply aligned_of_length_le_one
      simp only [set_baddatacrc, has_data, copies, hm, resize, data_size]
      simp
      split_ifs <;> simp
  · exact h

theorem remove_gapdata_aligned (env : Env) (s : Sector) (keep_crc : Bool) (h : Aligned s) :
    Aligned (s.remove_gapdata env keep_crc) := by
  intro d1 h1 d2 h2
  rw [remove_gapdata_map_of_aligned env s keep_crc h] at h1 h2
  simp only [List.mem_map] at h1 h2
  obtain ⟨c1, hc1, rfl⟩ := h1
  obtain ⟨c2, hc2, rfl⟩ := h2
  have hl := h c1 hc1 c2 hc2
  rw [hl]
  split_ifs <;> simp [List.length_take, hl]

theorem reachable_aligned (env : Env) (s : Sector) (h : Reachable env s) : Aligned s := by
  induction h with
  | new dr enc hdr gap3 => intro d1 h1; simp [Sector.new] at h1
  | add nd b m _ ih => exact add_aligned env _ nd b m ih
  | merge_receiver _ _ ih _ => exact merge_aligned env _ _ ih
  | merge_other _ _ _ ih => exact merge_other_aligned env _ _ ih
  | set_badidcrc bad _ ih =>
    cases bad
    · exact ih
    · intro d1 h1; simp [Sector.set_badidcrc, Sector.remove_data] at h1
  | set_baddatacrc bad _ ih => exact set_baddatacrc_aligned env _ bad ih
  | remove_data _ _ => intro d1 h1; simp [Sector.remove_data] at h1
  | limit_copies n _ ih =>
    rw [limit_copies_eq_take]
    exact aligned_of_sublist _ _ (List.take_sublist _ _) ih
  | remove_gapdata k _ ih => exact remove_gapdata_aligned env _ k ih

theorem add_stored_shape (env : Env) (s : Sector) (nd : Data) (b : Bool) (m : Byte)
    (h : (s.add env nd b m).1 ≠ Merge.Unchanged) :
    ∃ l : DataList, l.Sublist s.m_data ∧
      ((l = [] ∧ (s.add env nd b m).2.m_data = [nd].take env.maxcopies) ∨
        (l ≠ [] ∧ (s.add env nd b m).2.m_data =
          (l.map (fun d => resize 0 d (min nd.length (front l).length)) ++
            [resize 0 nd (min nd.length (front l).length)]).take env.maxcopies)) := by
  rcases add_cases env s nd b m with ⟨l, _, he⟩ | ⟨r, base, _, _, _, he⟩ |
    ⟨r, l, _, hl, hsub, _, _, _, he⟩
  · rw [he] at h
    exact absurd rfl h
  · exact ⟨[], List.nil_sublist _, Or.inl ⟨rfl, by rw [he, add_store_eq]; rfl⟩⟩
  · exact ⟨l, hsub, Or.inr ⟨hl, by rw [he, add_store_eq]⟩⟩

/-- C17: length alignment. In every sector state reachable from a freshly constructed
sector by `add`, `merge`, `set_badidcrc`, `set_baddatacrc`, `remove_data`, `limit_copies`
and `remove_gapdata`, all retained copies have the same length. When `add` on such a state
stores the candidate (any outcome but `Unchanged`), the new copy list is made of the
surviving copies `l` and the candidate, each cut to its first `n` bytes, `n` being the
shortest length among the candidate and the survivors, and then capped at `max_copies`
entries. -/
theorem length_alignment (env : Env) (s : Sector) (h : Reachable env s) :
    (∀ d1 ∈ s.m_data, ∀ d2 ∈ s.m_data, d1.length = d2.length) ∧
      ∀ (nd : Data) (b : Bool) (m : Byte), (s.add env nd b m).1 ≠ Merge.Unchanged →
        ∃ (l : DataList) (n : Nat), l.Sublist s.m_data ∧
          (∀ d ∈ nd :: l, n ≤ d.length) ∧ (∃ d ∈ nd :: l, d.length = n) ∧
          (s.add env nd b m).2.m_data =
            (l.map (List.take n) ++ [nd.take n]).take env.maxcopies := by
  have ha := reachable_aligned env s h
  refine ⟨ha, ?_⟩
  intro nd b m hu
  obtain ⟨l, hsub, hshape⟩ := add_stored_shape env s nd b m hu
  rcases hshape with ⟨hl, he⟩ | ⟨hl, he⟩
  · subst hl
    refine ⟨[], nd.length, hsub, ?_, ⟨nd, List.mem_cons_self _ _, rfl⟩, ?_⟩
    · intro d hd
      simp only [List.mem_singleton] at hd
      rw [hd]
    · rw [he, List.take_length]
      rfl
  · obtain ⟨f, rest, rfl⟩ := List.exists_cons_of_ne_nil hl
    have hf : f ∈ s.m_data := hsub.subset (List.mem_cons_self _ _)
    have hlen : ∀ d ∈ f :: rest, d.length = f.length := fun d hd => ha d (hsub.subset hd) f hf
    simp only [front, List.headD_cons] at he
    refine ⟨f :: rest, min nd.length f.length, hsub, ?_, ?_, ?_⟩
    · intro d hd
      rcases List.mem_cons.mp hd with rfl | hd
      · exact min_le_left _ _
      · rw [hlen d hd]
        exact min_le_right _ _
    · rcases Nat.le_total nd.length f.length with hle | hle
      · exact ⟨nd, List.mem_cons_self _ _, (min_eq_left hle).symm⟩
      · exact ⟨f, List.mem_cons_of_mem _ (List.mem_cons_self _ _), (min_eq_right hle).symm⟩
    · rw [he, resize_eq_take 0 nd _ (min_le_left _ _)]
      congr 2
      apply List.map_congr_left
      intro d hd
      exact resize_eq_take 0 d _ (by rw [hlen d hd]; exact min_le_right _ _)

/-- The sector with one bad 3-byte copy is reachable; a bad 2-byte candidate is stored
next to it and both are cut to 2 bytes. -/
theorem length_alignment_witness :
    ∃ (l : DataList) (n : Nat),
      l.Sublist (fresh512.add env512 [1, 2, 3] true 0xfb).2.m_data ∧
        (∀ d ∈ [9, 9] :: l, n ≤ d.length) ∧ (∃ d ∈ [9, 9] :: l, d.length = n) ∧
        ((fresh512.add env512 [1, 2, 3] true 0xfb).2.add env512 [9, 9] true 0xfb).2.m_data =
          (l.map (List.take n) ++ [List.take n [9, 9]]).take env512.maxcopies :=
  (length_alignment env512 (fresh512.add env512 [1, 2, 3] true 0xfb).2
    (Reachable.add [1, 2, 3] true 0xfb (Reachable.new _ _ _ _))).2 [9, 9] true 0xfb
    (by decide)

theorem add_compare_cap (env : Env) (s : Sector) (ret : Merge) (nd : Data) (b : Bool)
    (m : Byte) (c : Nat) (hret : ret ≠ Merge.Unchanged) :
    (∃ t, add_compare env s ret nd b m = (Merge.Unchanged, t) ∧
        add_compare { env with maxcopies := c } s ret nd b m = (Merge.Unchanged, t)) ∨
      (∃ (r : Merge) (x : Sector) (nd' : Data), r ≠ Merge.Unchanged ∧
        add_compare env s ret nd b m = add_store env x nd' b m r ∧
        add_compare { env with maxcopies := c } s ret nd b m =
          add_store { env with maxcopies := c } x nd' b m r ∧
        x.m_data.length ≤ s.m_data.length ∧ (∃ k, k ≤ nd.length ∧ nd' = nd.take k) ∧
        (x.m_data = [] → nd' = nd)) := by
  unfold add_compare
  dsimp only
  generalize hc : (if s.is_8k_sector then 0x1800 else nd.length) = cs
  have hsub := add_scan_sublist cs nd s.m_data ret []
  have hr := add_scan_ret cs nd s.m_data ret []
  cases hscan : add_scan cs nd ret [] s.m_data with
  | ignored l => exact Or.inl ⟨_, rfl, rfl⟩
  | scanned l ret3 =>
    rw [hscan] at hsub
    have hsub' : l.Sublist s.m_data := by simpa [Scan.list] using hsub
    have hret3 : ret3 ≠ Merge.Unchanged := by
      rcases hr l ret3 hscan with h | h
      · rw [h]; exact hret
      · rw [h]; decide
    simp only [copies, has_baddatacrc]
    split_ifs with h1 h2 h3
    · exact Or.inl ⟨_, rfl, rfl⟩
    · exact Or.inl ⟨_, rfl, rfl⟩
    · refine Or.inr ⟨ret3, _, _, hret3, rfl, rfl, ?_, ?_, ?_⟩
      · simpa using hsub'.length_le
      · exact ⟨_, min_le_left _ _, resize_eq_take 0 nd _ (min_le_left _ _)⟩
      · intro h0
        have : l = [] := by simpa using h0
        rw [this] at h1
        simp at h1
    · refine Or.inr ⟨ret3, _, _, hret3, rfl, rfl, ?_, ?_, ?_⟩
      · simpa using hsub'.length_le
      · exact ⟨nd.length, le_refl _, (List.take_length nd).symm⟩
      · intro _; rfl

theorem add_cap (env : Env) (s : Sector) (nd : Data) (b : Bool) (m : Byte) (c : Nat) :
    (∃ t, s.add env nd b m = (Merge.Unchanged, t) ∧
        s.add { env with maxcopies := c } nd b m = (Merge.Unchanged, t)) ∨
      (∃ (r : Merge) (x : Sector) (nd' : Data), r ≠ Merge.Unchanged ∧
        s.add env nd b m = add_store env x nd' b m r ∧
        s.add { env with maxcopies := c } nd b m =
          add_store { env with maxcopies := c } x nd' b m r ∧
        x.m_data.length ≤ s.m_data.length ∧ (∃ k, k ≤ nd.length ∧ nd' = nd.take k) ∧
        (x.m_data = [] → nd' = nd)) := by
  have hgood : has_good_data { env with maxcopies := c } s = has_good_data env s := rfl
  have h8k : ∀ (t : Sector) (r : Merge),
      add_8k { env with maxcopies := c } t r nd = add_8k env t r nd := fun _ _ => rfl
  unfold Sector.add
  rw [hgood]
  by_cases hid : s.has_badidcrc = true
  · exact Or.inl ⟨s, by rw [if_pos hid], by rw [if_pos hid]⟩
  rw [if_neg hid, if_neg hid]
  by_cases hg : (b && s.has_good_data env) = true
  · exact Or.inl ⟨s, by rw [if_pos hg], by rw [if_pos hg]⟩
  rw [if_neg hg, if_neg hg]
  dsimp only
  rw [h8k]
  cases h8 : add_8k env (if (!b && s.has_baddatacrc) = true then s.remove_data else s)
      (if (!b && s.has_baddatacrc) = true then Merge.Improved else Merge.NewData) nd with
  | none => exact Or.inl ⟨_, rfl, rfl⟩
  | some p =>
    rcases p with ⟨s2, ret2⟩
    dsimp only
    have hret2 : ret2 ≠ Merge.Unchanged := by
      rcases add_8k_some env _ s2 _ ret2 nd h8 with ⟨_, h2⟩ | ⟨_, h2⟩
      · rw [h2]; split_ifs <;> decide
      · rw [h2]; decide
    have hlen2 : s2.m_data.length ≤ s.m_data.length := by
      rcases add_8k_some env _ s2 _ ret2 nd h8 with ⟨h1, _⟩ | ⟨h1, _⟩
      · rw [h1]; split_ifs
        · simp [remove_data]
        · exact le_refl _
      · rw [h1]; simp [remove_data]
    rcases add_compare_cap env s2 ret2 nd b m c hret2 with ⟨t, h1, h2⟩ |
      ⟨r, x, nd', hr, h1, h2, hx, hk, h0⟩
    · exact Or.inl ⟨t, h1, h2⟩
    · exact Or.inr ⟨r, x, nd', hr, h1, h2, le_trans hx hlen2, hk, h0⟩

/-- C18 (counterexample): with a cap of two copies and the bad copies `[1]` and `[2]`
stored, the bad candidate `[3]` is appended and cut off again by the cap. `add` returns
`NewData`, the resulting number of copies, 2, does not exceed the cap, and the last
retained copy is `[2]`, which is no initial segment of `[3]`. -/
theorem add_store_cap_drops_candidate :
    (((fresh512.add env512cap2 [1] true 0xfb).2.add env512cap2 [2] true 0xfb).2.add
        env512cap2 [3] true 0xfb).1 = Merge.NewData ∧
      (((fresh512.add env512cap2 [1] true 0xfb).2.add env512cap2 [2] true 0xfb).2.add
        env512cap2 [3] true 0xfb).2.copies ≤ env512cap2.maxcopies ∧
      (((fresh512.add env512cap2 [1] true 0xfb).2.add env512cap2 [2] true 0xfb).2.add
        env512cap2 [3] true 0xfb).2.m_data.getLast? = some [2] ∧
      ∀ k : Nat, List.take k ([3] : Data) ≠ [2] := by
  refine ⟨by decide, by decide, by decide, ?_⟩
  intro k
  cases k with
  | zero => decide
  | succ n => simp

/-- C18 (amended): postcondition of a storing `add`. Whenever `add` returns `NewData` or
`Improved`, the bad-data-CRC flag afterwards is the candidate's `bad_crc` and the address
mark is the candidate's mark. The copy list as it stands after the append and before the
cap is applied is the one `add` leaves under the cap `copies() + 1`, which cannot cut
(`uncapped`): `add` has the same outcome under it and retains the first `max_copies`
entries of that list. When that list has no more than `max_copies` entries - in particular
when the sector held fewer than `max_copies` copies before the call - the last retained
copy is an initial segment of the candidate, and it is the whole candidate when it is the
only copy. -/
theorem add_store_postcondition (env : Env) (s : Sector) (nd : Data) (b : Bool) (m : Byte)
    (h : (s.add env nd b m).1 = Merge.NewData ∨ (s.add env nd b m).1 = Merge.Improved) :
    (s.add env nd b m).2.has_baddatacrc = b ∧ (s.add env nd b m).2.dam = m ∧
      (s.add (uncapped env s) nd b m).1 = (s.add env nd b m).1 ∧
      (s.add env nd b m).2.m_data =
        (s.add (uncapped env s) nd b m).2.m_data.take env.maxcopies ∧
      ((s.add (uncapped env s) nd b m).2.copies ≤ env.maxcopies →
        (∃ k, k ≤ nd.length ∧ (s.add env nd b m).2.m_data.getLast? = some (nd.take k)) ∧
          ((s.add env nd b m).2.copies = 1 → (s.add env nd b m).2.m_data = [nd])) ∧
      (s.copies < env.maxcopies →
        (s.add (uncapped env s) nd b m).2.copies ≤ env.maxcopies) := by
  have hu : (s.add env nd b m).1 ≠ Merge.Unchanged := by
    rcases h with h | h <;> rw [h] <;> decide
  obtain ⟨_, hflag, hdam, _⟩ := add_stored_facts env s nd b m hu
  refine ⟨hflag, hdam, ?_⟩
  rcases add_cap env s nd b m (s.copies + 1) with ⟨t, h1, _⟩ |
    ⟨r, x, nd', _, he, he', hx, ⟨k, hk, hnd'⟩, h0⟩
  · rw [h1] at hu
    exact absurd rfl hu
  · have hbig : (s.add (uncapped env s) nd b m).2.m_data = x.m_data ++ [nd'] := by
      show (s.add { env with maxcopies := s.copies + 1 } nd b m).2.m_data = _
      rw [he', add_store_eq]
      exact List.take_of_length_le (by simp [copies]; omega)
    have hsmall : (s.add env nd b m).2.m_data = (x.m_data ++ [nd']).take env.maxcopies := by
      rw [he, add_store_eq]
    have hcopies : (s.add (uncapped env s) nd b m).2.copies = x.m_data.length + 1 := by
      rw [copies, hbig]; simp
    refine ⟨?_, ?_, ?_, ?_⟩
    · show (s.add { env with maxcopies := s.copies + 1 } nd b m).1 = _
      rw [he, he']
      rfl
    · rw [hsmall, hbig]
    · intro hcap
      rw [hcopies] at hcap
      have hall : (s.add env nd b m).2.m_data = x.m_data ++ [nd'] := by
        rw [hsmall]
        exact List.take_of_length_le (by simpa using hcap)
      refine ⟨⟨k, hk, by rw [hall, hnd']; simp⟩, ?_⟩
      intro hone
      rw [copies, hall] at hone
      have hx0 : x.m_data = [] := by
        apply List.eq_nil_of_length_eq_zero
        simpa using hone
      rw [hall, hx0, h0 hx0]
      rfl
    · intro hlt
      rw [hcopies]
      simp only [copies] at hlt
      omega

/-- A bad 2-byte candidate under the normal mark stored next to a bad 3-byte copy under
the deleted mark, with a cap of three: the list becomes `[[1, 2], [9, 9]]`, flag and mark
are the candidate's, and the last retained copy is an initial segment of the candidate. -/
theorem add_store_postcondition_witness :
    ((fresh512.add env512 [1, 2, 3] true 0xf8).2.add env512 [9, 9] true 0xfb).2.m_data =
        [[1, 2], [9, 9]] ∧
      ((fresh512.add env512 [1, 2, 3] true 0xf8).2.add env512 [9, 9] true
        0xfb).2.has_baddatacrc = true ∧
      ((fresh512.add env512 [1, 2, 3] true 0xf8).2.add env512 [9, 9] true 0xfb).2.dam = 0xfb ∧
      ∃ k, k ≤ ([9, 9] : Data).length ∧
        ((fresh512.add env512 [1, 2, 3] true 0xf8).2.add env512 [9, 9] true
          0xfb).2.m_data.getLast? = some (List.take k [9, 9]) :=
  ⟨by decide,
    (add_store_postcondition env512 (fresh512.add env512 [1, 2, 3] true 0xf8).2 [9, 9] true
      0xfb (Or.inl (by decide))).1,
    (add_store_postcondition env512 (fresh512.add env512 [1, 2, 3] true 0xf8).2 [9, 9] true
      0xfb (Or.inl (by decide))).2.1,
    ((add_store_postcondition env512 (fresh512.add env512 [1, 2, 3] true 0xf8).2 [9, 9] true
      0xfb (Or.inl (by decide))).2.2.2.2.1 (by decide)).1⟩

/-! ## Candidates contained in a retained copy -/

theorem verdict_of_contained (c : Nat) (nd d : Data) (hlen : nd.length ≤ d.length)
    (hpre : d.take nd.length = nd) : verdict c nd d = Verdict.stop := by
  unfold verdict
  by_cases h1 : d.length ≥ c ∧ nd.length ≥ c ∧ d.take c = nd.take c
  · exact if_pos h1
  · rw [if_neg h1, if_pos hlen, if_pos hpre.symm]
    by_cases h2 : d.length = nd.length ∨ nd.length < c
    · exact if_pos h2
    · exfalso
      apply h1
      have hc : c ≤ nd.length := by
        by_contra hlt
        exact h2 (Or.inr (by omega))
      refine ⟨le_trans hc hlen, hc, ?_⟩
      conv_rhs => rw [← hpre, List.take_take, min_eq_left hc]

theorem verdict_erase_shorter (c : Nat) (nd d : Data) (h : verdict c nd d = Verdict.erase) :
    d.length < nd.length := by
  by_contra hge
  have hlen : nd.length ≤ d.length := by omega
  by_cases hpre : d.take nd.length = nd
  · rw [verdict_of_contained c nd d hlen hpre] at h
    exact absurd h (by decide)
  · unfold verdict at h
    have hpre' : ¬ (nd = d.take nd.length) := fun h' => hpre h'.symm
    split_ifs at h

theorem add_scan_of_contained (c : Nat) (nd : Data) (rest : DataList) :
    ∀ (ret : Merge) (kept : DataList),
      (∃ d ∈ rest, nd.length ≤ d.length ∧ d.take nd.length = nd) →
        ∃ l, add_scan c nd ret kept rest = Scan.ignored l := by
  induction rest with
  | nil => intro ret kept h; obtain ⟨d, hd, _⟩ := h; simp at hd
  | cons x rest ih =>
    intro ret kept h
    obtain ⟨d, hd, hlen, hpre⟩ := h
    rw [add_scan_cons]
    cases hv : verdict c nd x with
    | stop => exact ⟨_, rfl⟩
    | erase =>
      rcases List.mem_cons.mp hd with rfl | hd'
      · rw [verdict_of_contained c nd d hlen hpre] at hv
        exact absurd hv (by decide)
      · exact ih _ _ ⟨d, hd', hlen, hpre⟩
    | keep =>
      rcases List.mem_cons.mp hd with rfl | hd'
      · rw [verdict_of_contained c nd d hlen hpre] at hv
        exact absurd hv (by decide)
      · exact ih _ _ ⟨d, hd', hlen, hpre⟩

/-- C19: a candidate contained in a retained copy never replaces it. For every sector and
candidate such that no replacement rule fires first (it is not a good-CRC candidate against
data flagged bad, and not an 8K sector whose candidate has a recognized checksum), if some
retained copy is at least as long as the candidate and begins with the candidate's bytes,
`add` returns `Unchanged`. And the loop body never erases a copy that is as long as the
candidate or longer, whatever the completeness size: the branch 'the new shorter copy
replaces the existing data' is dead. -/
theorem add_contained_unchanged (env : Env) (s : Sector) (nd d : Data) (b : Bool) (m : Byte)
    (h95 : ¬ (b = false ∧ s.has_baddatacrc = true))
    (h8 : ¬ (s.is_8k_sector = true ∧ env.ChecksumMethods nd ≠ []))
    (hd : d ∈ s.m_data) (hlen : nd.length ≤ d.length) (hpre : d.take nd.length = nd) :
    (s.add env nd b m).1 = Merge.Unchanged ∧
      ∀ (c : Nat) (x : Data), verdict c nd x = Verdict.erase → x.length < nd.length := by
  refine ⟨?_, fun c x hx => verdict_erase_shorter c nd x hx⟩
  unfold Sector.add
  by_cases hid : s.has_badidcrc = true
  · rw [if_pos hid]
  rw [if_neg hid]
  by_cases hg : (b && s.has_good_data env) = true
  · rw [if_pos hg]
  rw [if_neg hg]
  have h95' : ¬ ((!b && s.has_baddatacrc) = true) := by
    intro h
    apply h95
    simpa using h
  simp only [h95', Bool.false_eq_true, if_false]
  have hdata : s.has_data = true := by
    have : s.m_data.length ≠ 0 := fun h0 => by
      rw [List.eq_nil_of_length_eq_zero h0] at hd
      simp at hd
    simpa [has_data, copies] using this
  have h8' : ¬ (s.datarate = DataRate._250K ∧ s.encoding = Encoding.MFM ∧ s.header.size = 6 ∧
      env.ChecksumMethods nd ≠ []) := by
    intro h
    apply h8
    refine ⟨?_, h.2.2.2⟩
    simp [is_8k_sector, h.1, h.2.1, h.2.2.1, hdata]
  rcases add_8k_unrecognised env s Merge.NewData nd h8' with h | h
  · rw [h]
  · rw [h]
    simp only [add_compare]
    obtain ⟨l, hl⟩ := add_scan_of_contained
      (if s.is_8k_sector then 0x1800 else nd.length) nd s.m_data Merge.NewData []
      ⟨d, hd, hlen, hpre⟩
    rw [hl]

/-- The bad 2-byte candidate `[1, 2]` against a stored bad copy `[1, 2, 3]`. -/
theorem add_contained_unchanged_witness :
    ((fresh512.add env512 [1, 2, 3] true 0xfb).2.add env512 [1, 2] true 0xf8).1 =
      Merge.Unchanged :=
  (add_contained_unchanged env512 (fresh512.add env512 [1, 2, 3] true 0xfb).2 [1, 2] [1, 2, 3]
    true 0xf8 (by decide) (by decide) (by decide) (by decide) (by decide)).1

end Samdisk
